import Mathlib

/-!
Verification of supechain-shark, a cross-chain message correlator.

A shallow embedding of `main.go`: the block-range gate `shouldProcessBlock`,
the executing-message decoder `decodeExecutingMessage`, and the two log loops of
`main` that fill `initiatingMsgMap`.

Go pointers are modelled explicitly: a `*big.Int` is an `Option Int` (`none` is
the nil pointer), and a `*Identifier` is an address into a heap of identifiers,
because `initiatingMsgMap` is keyed on the pointer, not on the pointed-to value.
-/

namespace SupechainShark

/-! ## Basic data -/

/-- One octet of a Go `[]byte`. -/
abbrev Byte := Fin 256

/-- The octet holding `n` truncated to eight bits, Go's `byte(n)`. -/
def byte (n : Nat) : Byte := ⟨n % 256, Nat.mod_lt n (by decide)⟩

/-- A `common.Hash`: 32 bytes, read as a big-endian number. Only equality of
hashes is ever used. -/
abbrev Hash := Nat

/-- A `common.Address`: the Go array type `[20]byte`. -/
abbrev Address := { l : List Byte // l.length = 20 }

/-- Filling a `[20]byte` array from a byte slice: the array starts zeroed and
receives the first twenty bytes. -/
def Address.ofList (l : List Byte) : Address :=
  ⟨(l ++ List.replicate 20 (0 : Byte)).take 20, by simp⟩

/-- The Go struct `Chain`. -/
structure Chain where
  ChainId : Nat
  Name : String
deriving DecidableEq, Repr

/-- The Go struct `Identifier`; the four `uint64` fields are naturals, and
`Identifier.valid` states that they fit in 64 bits. -/
structure Identifier where
  Origin : Address
  BlockNumber : Nat
  LogIndex : Nat
  Timestamp : Nat
  ChainId : Nat
deriving DecidableEq, Repr

/-- The four numeric fields are `uint64` values. -/
def Identifier.valid (id : Identifier) : Prop :=
  id.BlockNumber < 2 ^ 64 ∧ id.LogIndex < 2 ^ 64 ∧ id.Timestamp < 2 ^ 64 ∧ id.ChainId < 2 ^ 64

/-- The fields of `types.Log` that `main.go` reads. -/
structure Log where
  Address : SupechainShark.Address
  Topics : List Hash
  Data : List Byte
  BlockNumber : Nat
  Index : Nat
deriving DecidableEq, Repr

/-- The parts of `types.Block` that matter here: the header number (as returned
by `Number()`, always a fresh non-nil big integer), the header timestamp, and
`ReceivedAt.Unix()` as a signed 64-bit count of seconds. -/
structure Block where
  Number : Int
  Time : Nat
  ReceivedAt : Int
deriving DecidableEq, Repr

/-- An `ethereum.FilterQuery` as built by `main`. -/
structure FilterQuery where
  FromBlock : Option Int
  ToBlock : Option Int
  Topics : Option (List (List Hash))
deriving DecidableEq, Repr

/-! ## Package-level variables -/

/-- The value of `blockRangeSize = big.NewInt(5)`. -/
def blockRangeSize : Option Int := some 5

/-- The value of `crypto.Keccak256Hash([]byte("SentMessage(bytes)"))`. -/
def initiatingMessageHash : Hash :=
  0x0ee9ffdb2334d78de97ffb066b23a352a4d35180cefb36589d663fbb1eb6f326

/-- The value of `crypto.Keccak256Hash([]byte("ExecutingMessage(bytes32,Identifier)"))`. -/
def executingMessageHash : Hash :=
  0x5cd2e4d98208acb36b284c02ae6551b82c2b701bd57f40cbc5f3dabc9278f377

/-- The slice `supportedChains`. -/
def supportedChains : List Chain :=
  [{ Name := "Optimism", ChainId := 10 }, { Name := "Base", ChainId := 8453 }]

/-! ## RLP errors and program failures -/

/-- Modelled from the spec: the errors of the stream decoder of the go-ethereum
`rlp` package (not in the repository sources). -/
inductive RlpError
  | EOF
  | ErrUnexpectedEOF
  | ErrExpectedString
  | ErrExpectedList
  | ErrCanonInt
  | ErrCanonSize
  | ErrElemTooLarge
  | ErrValueTooLarge
  | EOL
  | errNotInList
  | errNotAtEOL
  | errUintOverflow
  | inputStringTooLong
  | inputStringTooShort
  | tooFewElements
deriving DecidableEq, Repr

/-- Ways a goroutine of `main` stops abnormally: a run-time panic on a nil
pointer dereference, or one of the `log.Fatalf` calls. -/
inductive Failure
  | nilPointerDereference
  | fatalLatestBlock
  | fatalLogs
  | fatalDecode (e : RlpError)
deriving DecidableEq, Repr

/-! ## Big integers behind pointers -/

/-- The method `(*big.Int).Sub`: `z.Sub(x, y)` stores `x - y` in the integer `z`
points to and returns `z`. It reads the fields of `x` and `y` and writes the
fields of `z`, so a nil `x`, `y` or receiver `z` is a nil pointer dereference. -/
def bigSub (z x y : Option Int) : Except Failure (Option Int) :=
  match x, y, z with
  | some a, some b, some _ => .ok (some (a - b))
  | _, _, _ => .error .nilPointerDereference

/-- The method `(*big.Int).Cmp`: -1, 0 or 1. Identical pointers (two nils
included) compare equal before any field is read. -/
def bigCmp (x y : Option Int) : Except Failure Int :=
  match x, y with
  | none, none => .ok 0
  | some a, some b => .ok (if a < b then -1 else if a = b then 0 else 1)
  | _, _ => .error .nilPointerDereference

/-- The last two statements of `shouldProcessBlock`, as a function of the
pointer `diff` they read: `diff.Cmp(sourceStartBlock)` and the returned
disjunction. -/
def compareToStartBlock (diff sourceStartBlock : Option Int) : Except Failure Bool :=
  match bigCmp diff sourceStartBlock with
  | .error e => .error e
  | .ok comparedToStartBlock =>
    .ok (comparedToStartBlock == -1 || comparedToStartBlock == 0)

/-- The function `shouldProcessBlock`. The local `diff` is declared with
`var diff *big.Int`, hence nil, and is the receiver of `Sub`; the comparison
then reads the same pointer. -/
def shouldProcessBlock (sourceStartBlock sourceLatestBlock : Option Int) :
    Except Failure Bool :=
  let diff : Option Int := none
  match bigSub diff sourceLatestBlock blockRangeSize with
  | .error e => .error e
  | .ok diff => compareToStartBlock diff sourceStartBlock

/-- The statements `var toBlock *big.Int; toBlock.Sub(latest, blockRangeSize)`
of both scans: the receiver is the nil pointer just declared. -/
def computeToBlock (latestNumber : Option Int) : Except Failure (Option Int) :=
  let toBlock : Option Int := none
  bigSub toBlock latestNumber blockRangeSize

/-! ## RLP encoding of an `Identifier`

The `rlp` package of go-ethereum is a dependency, not part of the repository
sources. The encoder below is the wire format of the identifier; the decoder is
the stream decoder that `rlp.Decode` runs on a `bytes.Reader`. -/

/-- Modelled from the spec: `putint` of the go-ethereum `rlp` package (not in
the repository sources), the big-endian bytes of a `uint64` with leading zero
bytes stripped, one case per width as in the package. -/
def putint (i : Nat) : List Byte :=
  if i < 2 ^ 8 then [byte i]
  else if i < 2 ^ 16 then [byte (i / 2 ^ 8), byte i]
  else if i < 2 ^ 24 then [byte (i / 2 ^ 16), byte (i / 2 ^ 8), byte i]
  else if i < 2 ^ 32 then [byte (i / 2 ^ 24), byte (i / 2 ^ 16), byte (i / 2 ^ 8), byte i]
  else if i < 2 ^ 40 then
    [byte (i / 2 ^ 32), byte (i / 2 ^ 24), byte (i / 2 ^ 16), byte (i / 2 ^ 8), byte i]
  else if i < 2 ^ 48 then
    [byte (i / 2 ^ 40), byte (i / 2 ^ 32), byte (i / 2 ^ 24), byte (i / 2 ^ 16),
      byte (i / 2 ^ 8), byte i]
  else if i < 2 ^ 56 then
    [byte (i / 2 ^ 48), byte (i / 2 ^ 40), byte (i / 2 ^ 32), byte (i / 2 ^ 24),
      byte (i / 2 ^ 16), byte (i / 2 ^ 8), byte i]
  else
    [byte (i / 2 ^ 56), byte (i / 2 ^ 48), byte (i / 2 ^ 40), byte (i / 2 ^ 32),
      byte (i / 2 ^ 24), byte (i / 2 ^ 16), byte (i / 2 ^ 8), byte i]

/-- Modelled from the spec: the RLP encoding of a `uint64` (`writeUint64` of the
`rlp` package, not in the repository sources): zero is the empty string `0x80`,
a value below 128 is its own byte, anything else is a string holding the
minimal big-endian bytes. -/
def encodeUint64 (i : Nat) : List Byte :=
  if i = 0 then [byte 0x80]
  else if i < 128 then [byte i]
  else byte (0x80 + (putint i).length) :: putint i

/-- Modelled from the spec: the RLP encoding of a 20-byte address (a byte array
is encoded as a string; the `rlp` package is not in the repository sources). -/
def encodeAddress (a : Address) : List Byte :=
  byte (0x80 + 20) :: a.val

/-- Modelled from the spec: the RLP list header for a payload of `size` bytes
(`puthead` of the `rlp` package, not in the repository sources). -/
def listHeader (size : Nat) : List Byte :=
  if size < 56 then [byte (0xC0 + size)]
  else byte (0xF7 + (putint size).length) :: putint size

/-- Modelled from the spec: the payload of the identifier wire format, the
concatenated encodings of the five fields in declaration order (written by the
`rlp` package, not in the repository sources). -/
def identifierPayload (id : Identifier) : List Byte :=
  encodeAddress id.Origin ++ encodeUint64 id.BlockNumber ++ encodeUint64 id.LogIndex
    ++ encodeUint64 id.Timestamp ++ encodeUint64 id.ChainId

/-- Modelled from the spec: `rlp.EncodeToBytes` on an `Identifier` (the `rlp`
package is not in the repository sources): the identifier wire format, a list
of the five fields. -/
def encodeIdentifier (id : Identifier) : List Byte :=
  listHeader (identifierPayload id).length ++ identifierPayload id

/-! ## RLP stream decoding -/

/-- Modelled from the spec: the kind of the next RLP value, as reported by
`Stream.Kind` (go-ethereum `rlp`, not in the repository sources). -/
inductive Kind
  | Byte
  | String
  | List
deriving DecidableEq, Repr

/-- Modelled from the spec: the `rlp.Stream` of the go-ethereum `rlp` package
(not in the repository sources) reading from a `bytes.Reader`. Field `r` is the
unread input; the stream is size-limited and its `remaining` counter always
equals the length of `r`. Field `stack` holds the bytes left in each enclosing
list, innermost first. The cache of the last `Kind` result is left out: every
successful read made here re-arms it. -/
structure Stream where
  r : List Byte
  stack : List Nat
deriving DecidableEq, Repr

/-- Modelled from the spec: `Stream.willRead` (go-ethereum `rlp`, not in the
repository sources): account for `n` bytes about to be read against the
innermost list and against the input. -/
def Stream.willRead (s : Stream) (n : Nat) : Except RlpError Stream :=
  match s.stack with
  | [] => if n > s.r.length then .error .ErrValueTooLarge else .ok s
  | limit :: rest =>
    if n > limit then .error .ErrElemTooLarge
    else if n > s.r.length then .error .ErrValueTooLarge
    else .ok { s with stack := (limit - n) :: rest }

/-- Modelled from the spec: `Stream.readByte` (go-ethereum `rlp`, not in the
repository sources). -/
def Stream.readByte (s : Stream) : Except RlpError (Byte × Stream) :=
  match s.willRead 1 with
  | .error e => .error e
  | .ok s1 =>
    match s1.r with
    | [] => .error .ErrUnexpectedEOF
    | b :: r => .ok (b, { s1 with r := r })

/-- Modelled from the spec: `Stream.readFull` (go-ethereum `rlp`, not in the
repository sources): read exactly `n` bytes. -/
def Stream.readFull (s : Stream) (n : Nat) : Except RlpError (List Byte × Stream) :=
  match s.willRead n with
  | .error e => .error e
  | .ok s1 =>
    if s1.r.length < n then .error .ErrUnexpectedEOF
    else .ok (s1.r.take n, { s1 with r := s1.r.drop n })

/-- Modelled from the spec: the number whose big-endian bytes are `buf`, as
`Stream.readUint` (go-ethereum `rlp`, not in the repository sources) obtains it
with `binary.BigEndian.Uint64` on a zero-padded buffer. -/
def bigEndian (buf : List Byte) : Nat :=
  buf.foldl (fun acc b => acc * 256 + b.val) 0

/-- Modelled from the spec: `Stream.readUint` (go-ethereum `rlp`, not in the
repository sources): read a big-endian integer of `size` bytes, refusing a
leading zero byte when there are two bytes or more. -/
def Stream.readUint (s : Stream) (size : Nat) : Except RlpError (Nat × Stream) :=
  match size with
  | 0 => .ok (0, s)
  | 1 =>
    match s.readByte with
    | .error e => .error e
    | .ok (b, s1) => .ok (b.val, s1)
  | _ =>
    match s.readFull size with
    | .error e => .error e
    | .ok (buf, s1) =>
      if buf.head? = some 0 then .error .ErrCanonSize else .ok (bigEndian buf, s1)

/-- Modelled from the spec: at top level `Stream.readKind` (go-ethereum `rlp`,
not in the repository sources) reports a failed header read as plain end of
input. -/
def topLevelError (e : RlpError) : RlpError :=
  match e with
  | .ErrUnexpectedEOF => .EOF
  | .ErrValueTooLarge => .EOF
  | e => e

/-- Modelled from the spec: `Stream.readKind` (go-ethereum `rlp`, not in the
repository sources): read the type tag of the next value; the result is the
kind, the size of the content, and the value itself for a single byte. -/
def Stream.readKind (s : Stream) : Except RlpError (Kind × Nat × Byte × Stream) :=
  match s.readByte with
  | .error e => if s.stack = [] then .error (topLevelError e) else .error e
  | .ok (b, s1) =>
    if b.val < 0x80 then .ok (.Byte, 0, b, s1)
    else if b.val < 0xB8 then .ok (.String, b.val - 0x80, 0, s1)
    else if b.val < 0xC0 then
      match s1.readUint (b.val - 0xB7) with
      | .error e => .error e
      | .ok (size, s2) =>
        if size < 56 then .error .ErrCanonSize else .ok (.String, size, 0, s2)
    else if b.val < 0xF8 then .ok (.List, b.val - 0xC0, 0, s1)
    else
      match s1.readUint (b.val - 0xF7) with
      | .error e => .error e
      | .ok (size, s2) =>
        if size < 56 then .error .ErrCanonSize else .ok (.List, size, 0, s2)

/-- Modelled from the spec: `Stream.Kind` (go-ethereum `rlp`, not in the
repository sources): end-of-list check, then the tag, then the declared size is
checked against the list limit taken before the tag was read and against the
input left. -/
def Stream.Kind (s : Stream) : Except RlpError (Kind × Nat × Byte × Stream) :=
  match s.stack with
  | [] =>
    match s.readKind with
    | .error e => .error e
    | .ok (kind, size, byteval, s1) =>
      if size > s1.r.length then .error .ErrValueTooLarge
      else .ok (kind, size, byteval, s1)
  | listLimit :: _ =>
    if listLimit = 0 then .error .EOL
    else
      match s.readKind with
      | .error e => .error e
      | .ok (kind, size, byteval, s1) =>
        if size > listLimit then .error .ErrElemTooLarge
        else if size > s1.r.length then .error .ErrValueTooLarge
        else .ok (kind, size, byteval, s1)

/-- Modelled from the spec: `Stream.List` (go-ethereum `rlp`, not in the
repository sources): enter a list, pushing its size on the stack. -/
def Stream.List (s : Stream) : Except RlpError (Nat × Stream) :=
  match s.Kind with
  | .error e => .error e
  | .ok (kind, size, _, s1) =>
    if kind ≠ .List then .error .ErrExpectedList
    else
      match s1.stack with
      | [] => .ok (size, { s1 with stack := [size] })
      | limit :: rest => .ok (size, { s1 with stack := size :: (limit - size) :: rest })

/-- Modelled from the spec: `Stream.ListEnd` (go-ethereum `rlp`, not in the
repository sources): leave the list, which must be used up. -/
def Stream.ListEnd (s : Stream) : Except RlpError Stream :=
  match s.stack with
  | [] => .error .errNotInList
  | listLimit :: rest =>
    if listLimit > 0 then .error .errNotAtEOL else .ok { s with stack := rest }

/-- Modelled from the spec: `Stream.uint` (go-ethereum `rlp`, not in the
repository sources): an unsigned integer of at most `maxbits` bits in canonical
form. -/
def Stream.uint (s : Stream) (maxbits : Nat) : Except RlpError (Nat × Stream) :=
  match s.Kind with
  | .error e => .error e
  | .ok (.Byte, _, byteval, s1) =>
    if byteval.val = 0 then .error .ErrCanonInt else .ok (byteval.val, s1)
  | .ok (.String, size, _, s1) =>
    if size > maxbits / 8 then .error .errUintOverflow
    else
      match s1.readUint size with
      | .error e => if e = .ErrCanonSize then .error .ErrCanonInt else .error e
      | .ok (v, s2) =>
        if 0 < size ∧ v < 128 then .error .ErrCanonSize else .ok (v, s2)
  | .ok (.List, _, _, _) => .error .ErrExpectedString

/-- Modelled from the spec: `decodeByteArray` (go-ethereum `rlp`, not in the
repository sources) for the array type `[20]byte`. -/
def decodeByteArray (s : Stream) : Except RlpError (Address × Stream) :=
  match s.Kind with
  | .error e => .error e
  | .ok (.Byte, _, _, _) => .error .inputStringTooShort
  | .ok (.String, size, _, s1) =>
    if 20 < size then .error .inputStringTooLong
    else if 20 > size then .error .inputStringTooShort
    else
      match s1.readFull 20 with
      | .error e => .error e
      | .ok (slice, s2) =>
        if size = 1 ∧ (slice.headD 0).val < 128 then .error .ErrCanonSize
        else .ok (Address.ofList slice, s2)
  | .ok (.List, _, _, _) => .error .ErrExpectedString

/-- Modelled from the spec: a field decoder that meets the end of the list makes
the struct decoder (go-ethereum `rlp`, not in the repository sources) report too
few elements. -/
def fieldError (e : RlpError) : RlpError :=
  if e = .EOL then .tooFewElements else e

/-- Modelled from the spec: the struct decoder the `rlp` package (not in the
repository sources) builds for `Identifier`: enter the list, decode the five
fields in declaration order, leave the list. -/
def decodeIdentifierStruct (s : Stream) : Except RlpError (Identifier × Stream) :=
  match s.List with
  | .error e => .error e
  | .ok (_, s0) =>
    match decodeByteArray s0 with
    | .error e => .error (fieldError e)
    | .ok (origin, s1) =>
      match s1.uint 64 with
      | .error e => .error (fieldError e)
      | .ok (blockNumber, s2) =>
        match s2.uint 64 with
        | .error e => .error (fieldError e)
        | .ok (logIndex, s3) =>
          match s3.uint 64 with
          | .error e => .error (fieldError e)
          | .ok (timestamp, s4) =>
            match s4.uint 64 with
            | .error e => .error (fieldError e)
            | .ok (chainId, s5) =>
              match s5.ListEnd with
              | .error e => .error e
              | .ok s6 =>
                .ok ({ Origin := origin, BlockNumber := blockNumber, LogIndex := logIndex,
                       Timestamp := timestamp, ChainId := chainId }, s6)

/-- Modelled from the spec: `rlp.Decode(bytes.NewReader(data), &identifier)`
(the `rlp` package is not in the repository sources): one value is decoded from
the start of the reader; input after that value is not looked at. -/
def rlpDecode (data : List Byte) : Except RlpError Identifier :=
  match decodeIdentifierStruct { r := data, stack := [] } with
  | .error e => .error e
  | .ok (identifier, _) => .ok identifier

/-! ## The decoder of `main.go` -/

/-- The function `decodeExecutingMessage`. The result `&identifier` is a pointer
to a freshly allocated identifier: the address is the next free cell of the
heap, which receives the decoded value. -/
def decodeExecutingMessage (messageLog : Log) (heap : List Identifier) :
    Except RlpError (Nat × List Identifier) :=
  match rlpDecode messageLog.Data with
  | .error e => .error e
  | .ok identifier => .ok (heap.length, heap ++ [identifier])

/-! ## The index and the two log loops of `main` -/

/-- The Go map type `map[*Identifier]*common.Hash`: the key is the address of an
identifier, the value is nil (`none`) or points to a hash. No address occurs
twice as a key. -/
abbrev MsgMap := List (Nat × Option Hash)

/-- The map read `m[k]`: a missing key reads as the zero value, the nil
pointer. -/
def MsgMap.get (m : MsgMap) (k : Nat) : Option Hash :=
  match m.lookup k with
  | some v => v
  | none => none

/-- The map write `m[k] = v`: replace the value of an existing key, otherwise
add the key. -/
def MsgMap.set (m : MsgMap) (k : Nat) (v : Option Hash) : MsgMap :=
  if m.any (fun e => e.1 == k) then m.map (fun e => if e.1 = k then (k, v) else e)
  else m ++ [(k, v)]

/-- The memory the two loops share: the identifiers allocated so far (the
address of an identifier is its position) and the package-level
`initiatingMsgMap`. -/
structure State where
  heap : List Identifier
  initiatingMsgMap : MsgMap
deriving DecidableEq, Repr

/-- The start of `main`: nothing allocated, `initiatingMsgMap` empty. -/
def State.init : State := { heap := [], initiatingMsgMap := [] }

/-- The entries of the index whose key points to an identifier with the same
five fields as `id`. -/
def State.entriesFor (st : State) (id : Identifier) : MsgMap :=
  st.initiatingMsgMap.filter (fun e => decide (st.heap.get? e.1 = some id))

/-- The conversion `uint64(x)` of Go from a signed 64-bit integer. -/
def uint64OfInt (x : Int) : Nat := (x % 2 ^ 64).toNat

/-- The composite literal `&Identifier{...}` of the source loop, before the
address is taken. -/
def sourceIdentifier (identifiedLog : Log) (sourceLatestBlock : Block) (sourceChain : Chain) :
    Identifier :=
  { Origin := identifiedLog.Address
    BlockNumber := identifiedLog.BlockNumber
    LogIndex := identifiedLog.Index % 2 ^ 64
    Timestamp := uint64OfInt sourceLatestBlock.ReceivedAt
    ChainId := sourceChain.ChainId }

/-- The body of the inner loop of the source scan, for one topic of the log: on
a match a new identifier is allocated and its address becomes a key with a nil
value. -/
def sourceTopicStep (identifiedLog : Log) (sourceLatestBlock : Block) (sourceChain : Chain)
    (st : State) (topic : Hash) : State :=
  if topic = initiatingMessageHash then
    let identifier := st.heap.length
    { heap := st.heap ++ [sourceIdentifier identifiedLog sourceLatestBlock sourceChain]
      initiatingMsgMap := st.initiatingMsgMap.set identifier none }
  else st

/-- The body of the outer loop of the source scan: every topic of the log is
compared with `initiatingMessageHash`. -/
def processSourceLog (sourceLatestBlock : Block) (sourceChain : Chain) (st : State)
    (identifiedLog : Log) : State :=
  identifiedLog.Topics.foldl (sourceTopicStep identifiedLog sourceLatestBlock sourceChain) st

/-- The outer loop of the source scan over the fetched logs. -/
def processSourceLogs (sourceLatestBlock : Block) (sourceChain : Chain) (st : State)
    (logs : List Log) : State :=
  logs.foldl (processSourceLog sourceLatestBlock sourceChain) st

/-- The body of the inner loop of the destination scan, for one topic of the
log: on a match the data is decoded, a decoding error ends the process through
`log.Fatalf`, and the message hash is stored when the key reads as nil. -/
def destinationTopicStep (identifiedLog : Log) (msgHash : Hash) (st : State) (topic : Hash) :
    Except Failure State :=
  if topic = executingMessageHash then
    match decodeExecutingMessage identifiedLog st.heap with
    | .error e => .error (.fatalDecode e)
    | .ok (identifier, heap) =>
      if st.initiatingMsgMap.get identifier = none then
        .ok { heap := heap, initiatingMsgMap := st.initiatingMsgMap.set identifier (some msgHash) }
      else .ok { heap := heap, initiatingMsgMap := st.initiatingMsgMap }
  else .ok st

/-- The inner loop of the destination scan over the topics of one log. -/
def destinationTopics (identifiedLog : Log) (msgHash : Hash) :
    List Hash → State → Except Failure State
  | [], st => .ok st
  | topic :: rest, st =>
    match destinationTopicStep identifiedLog msgHash st topic with
    | .error e => .error e
    | .ok st1 => destinationTopics identifiedLog msgHash rest st1

/-- The body of the outer loop of the destination scan: a log with fewer than
two topics is skipped (`continue`), otherwise `msgHash` is the second topic and
every topic is compared with `executingMessageHash`. -/
def processDestinationLog (st : State) (identifiedLog : Log) : Except Failure State :=
  match identifiedLog.Topics with
  | _ :: msgHash :: _ => destinationTopics identifiedLog msgHash identifiedLog.Topics st
  | _ => .ok st

/-- The outer loop of the destination scan over the fetched logs. -/
def processDestinationLogs : List Log → State → Except Failure State
  | [], st => .ok st
  | identifiedLog :: rest, st =>
    match processDestinationLog st identifiedLog with
    | .error e => .error e
    | .ok st1 => processDestinationLogs rest st1

/-! ## The two scans of `main` -/

/-- The chain client as the scans use it: the latest block (`BlockByNumber` with
a nil number) and `FilterLogs`; `none` stands for a returned error. -/
structure Client where
  BlockByNumber : Option Block
  FilterLogs : FilterQuery → Option (List Log)

/-- The source goroutine after the client is created: start block 100, the
latest block, the gate `shouldProcessBlock`, the computation of `toBlock`, the
log query over `[sourceStartBlock, toBlock]` without topic filter, and the loop
over the logs. -/
def sourceScan (sourceClient : Client) (st : State) : Except Failure State :=
  let sourceChain := supportedChains.get ⟨0, by decide⟩
  let sourceStartBlock : Option Int := some 100
  match sourceClient.BlockByNumber with
  | none => .error .fatalLatestBlock
  | some sourceLatestBlock =>
    match shouldProcessBlock sourceStartBlock (some sourceLatestBlock.Number) with
    | .error e => .error e
    | .ok false => .ok st
    | .ok true =>
      match computeToBlock (some sourceLatestBlock.Number) with
      | .error e => .error e
      | .ok toBlock =>
        match sourceClient.FilterLogs
            { FromBlock := sourceStartBlock, ToBlock := toBlock, Topics := none } with
        | none => .error .fatalLogs
        | some logs => .ok (processSourceLogs sourceLatestBlock sourceChain st logs)

/-- The destination goroutine after the client is created; same shape as the
source goroutine, with the destination loop. -/
def destinationScan (destinationClient : Client) (st : State) : Except Failure State :=
  let destinationStartBlock : Option Int := some 100
  match destinationClient.BlockByNumber with
  | none => .error .fatalLatestBlock
  | some destinationLatestBlock =>
    match shouldProcessBlock destinationStartBlock (some destinationLatestBlock.Number) with
    | .error e => .error e
    | .ok false => .ok st
    | .ok true =>
      match computeToBlock (some destinationLatestBlock.Number) with
      | .error e => .error e
      | .ok toBlock =>
        match destinationClient.FilterLogs
            { FromBlock := destinationStartBlock, ToBlock := toBlock, Topics := none } with
        | none => .error .fatalLogs
        | some logs => processDestinationLogs logs st

/-! ## Recorded scenario (S1 of the specification) -/

/-- The emitting contract of scenario S1: twenty bytes `0xAA`. -/
def scenarioOrigin : Address := ⟨List.replicate 20 (byte 0xAA), by simp⟩

/-- The scanning chain of the source goroutine, `supportedChains[0]`. -/
def scenarioChain : Chain := { Name := "Optimism", ChainId := 10 }

/-- The latest block of scenario S1: number 107, received at 1700000000. -/
def scenarioLatest : Block := { Number := 107, Time := 1700000014, ReceivedAt := 1700000000 }

/-- The source log of scenario S1: block 100, log index 3, first topic the
initiating signature hash. -/
def scenarioSourceLog : Log :=
  { Address := scenarioOrigin, Topics := [initiatingMessageHash], Data := [],
    BlockNumber := 100, Index := 3 }

/-- The identifier the source scan builds from the source log of scenario S1. -/
def scenarioId : Identifier :=
  { Origin := scenarioOrigin, BlockNumber := 100, LogIndex := 3, Timestamp := 1700000000,
    ChainId := 10 }

/-- The destination log of scenario S1: block 200, second topic the message
hash `0xDEAD`, data the RLP encoding of the identifier. -/
def scenarioDestinationLog : Log :=
  { Address := scenarioOrigin, Topics := [executingMessageHash, 0xDEAD],
    Data := encodeIdentifier scenarioId, BlockNumber := 200, Index := 0 }

/-- A destination log with the executing hash and a message hash whose data is
empty, hence not RLP. -/
def malformedDestinationLog : Log :=
  { Address := scenarioOrigin, Topics := [executingMessageHash, 0xBEEF],
    Data := [], BlockNumber := 199, Index := 0 }

/-- A source log whose first topic is not the initiating hash and whose second
topic is. -/
def secondTopicSourceLog : Log :=
  { Address := scenarioOrigin, Topics := [0, initiatingMessageHash], Data := [],
    BlockNumber := 100, Index := 3 }

/-- The block that contains the source log of scenario S1: number 100, mined at
1699999986, before the latest block was received. -/
def scenarioLogBlock : Block := { Number := 100, Time := 1699999986, ReceivedAt := 1699999990 }

/-- The destination log of scenario S1 with one extra zero byte after the
encoded identifier. -/
def trailingByteLog : Log :=
  { Address := scenarioOrigin, Topics := [executingMessageHash, 0xDEAD],
    Data := encodeIdentifier scenarioId ++ [0], BlockNumber := 200, Index := 0 }

/-- A log with two topics, neither of them a signature hash. -/
def foreignLog : Log :=
  { Address := scenarioOrigin, Topics := [1, 2], Data := [], BlockNumber := 100, Index := 4 }

/-- A source log in which the initiating hash occurs as two topics. -/
def doubleTopicLog : Log :=
  { Address := scenarioOrigin, Topics := [initiatingMessageHash, initiatingMessageHash],
    Data := [], BlockNumber := 100, Index := 3 }

/-- The latest block as the chain client hands it to the scan: `BlockByNumber`
builds the block from the fetched header and body and never sets `ReceivedAt`,
which stays the zero `time.Time`, whose `Unix()` is -62135596800. -/
def fetchedLatest : Block := { Number := 107, Time := 1700000014, ReceivedAt := -62135596800 }

/-- Every key of the index is the address of an allocated identifier. This holds
at the start of `main`, and both loops only add the address of an identifier
they have just allocated. -/
def State.wf (st : State) : Prop :=
  ∀ e ∈ st.initiatingMsgMap, e.1 < st.heap.length

/-- A log the destination loop passes over: fewer than two topics, or no topic
equal to `executingMessageHash`. -/
def passedOver (l : Log) : Bool :=
  decide (l.Topics.length < 2) || !(l.Topics.contains executingMessageHash)

/-- A chain client whose latest block is `b` and whose log query returns
`logs`. -/
def fixedClient (b : Block) (logs : List Log) : Client :=
  { BlockByNumber := some b, FilterLogs := fun _ => some logs }

/-! ## Specification vocabulary for the stream decoder -/

/-- The stack of list limits after `n` bytes were read, when they fit in the
innermost list. -/
def stackAfter (stack : List Nat) (n : Nat) : Option (List Nat) :=
  match stack with
  | [] => some []
  | limit :: rest => if n ≤ limit then some ((limit - n) :: rest) else none

/-- Stream `s1` is stream `s` after exactly the bytes `bs` were read. -/
structure Consumes (s s1 : Stream) (bs : List Byte) : Prop where
  input : s.r = bs ++ s1.r
  stack : stackAfter s.stack bs.length = some s1.stack

/-- The header bytes `hdr` announce a value of the given kind and content size;
for a single byte the value itself is the last component. -/
inductive Header : List Byte → Kind → Nat → Byte → Prop
  | single (b : Byte) (h : b.val < 0x80) : Header [b] .Byte 0 b
  | shortString (b : Byte) (h1 : 0x80 ≤ b.val) (h2 : b.val < 0xB8) :
      Header [b] .String (b.val - 0x80) 0
  | longString (b : Byte) (bs : List Byte) (h1 : 0xB8 ≤ b.val) (h2 : b.val < 0xC0)
      (hlen : bs.length = b.val - 0xB7) (hcanon : 2 ≤ bs.length → bs.head? ≠ some 0)
      (hsize : 56 ≤ bigEndian bs) : Header (b :: bs) .String (bigEndian bs) 0
  | shortList (b : Byte) (h1 : 0xC0 ≤ b.val) (h2 : b.val < 0xF8) :
      Header [b] .List (b.val - 0xC0) 0
  | longList (b : Byte) (bs : List Byte) (h1 : 0xF8 ≤ b.val)
      (hlen : bs.length = b.val - 0xF7) (hcanon : 2 ≤ bs.length → bs.head? ≠ some 0)
      (hsize : 56 ≤ bigEndian bs) : Header (b :: bs) .List (bigEndian bs) 0

deriving instance DecidableEq for Except

/-! ## Helper lemmas: the log loops -/

theorem sourceTopics_no_match (l : Log) (b : Block) (c : Chain) (topics : List Hash) (st : State)
    (h : ∀ t ∈ topics, t ≠ initiatingMessageHash) :
    topics.foldl (sourceTopicStep l b c) st = st := by
  induction topics generalizing st with
  | nil => rfl
  | cons t ts ih =>
    have ht : t ≠ initiatingMessageHash := h t (List.mem_cons_self t ts)
    have hts : ∀ u ∈ ts, u ≠ initiatingMessageHash := fun u hu => h u (List.mem_cons_of_mem t hu)
    simp only [List.foldl_cons, sourceTopicStep, if_neg ht]
    exact ih st hts

theorem destinationTopics_no_match (l : Log) (m : Hash) (topics : List Hash) (st : State)
    (h : ∀ t ∈ topics, t ≠ executingMessageHash) :
    destinationTopics l m topics st = .ok st := by
  induction topics generalizing st with
  | nil => rfl
  | cons t ts ih =>
    have ht : t ≠ executingMessageHash := h t (List.mem_cons_self t ts)
    have hts : ∀ u ∈ ts, u ≠ executingMessageHash := fun u hu => h u (List.mem_cons_of_mem t hu)
    simp only [destinationTopics, destinationTopicStep, if_neg ht]
    exact ih st hts

theorem processDestinationLog_no_match (l : Log) (st : State)
    (h : ∀ t ∈ l.Topics, t ≠ executingMessageHash) :
    processDestinationLog st l = .ok st := by
  unfold processDestinationLog
  split
  · exact destinationTopics_no_match l _ l.Topics st h
  · rfl

theorem processDestinationLog_few_topics (l : Log) (st : State) (h : l.Topics.length < 2) :
    processDestinationLog st l = .ok st := by
  unfold processDestinationLog
  split
  · rename_i heq
    rw [heq] at h
    simp at h
    omega
  · rfl

theorem processDestinationLog_passedOver (l : Log) (st : State) (h : passedOver l = true) :
    processDestinationLog st l = .ok st := by
  unfold passedOver at h
  rcases Bool.or_eq_true _ _ |>.mp h with h1 | h2
  · exact processDestinationLog_few_topics l st (of_decide_eq_true h1)
  · apply processDestinationLog_no_match
    intro t ht hEq
    subst hEq
    simp at h2
    exact h2 ht

theorem destinationTopics_decode_error (l : Log) (m : Hash) (topics : List Hash) (st : State)
    (e : RlpError) (hdec : rlpDecode l.Data = .error e) (hmem : executingMessageHash ∈ topics) :
    destinationTopics l m topics st = .error (.fatalDecode e) := by
  induction topics generalizing st with
  | nil => simp at hmem
  | cons t ts ih =>
    by_cases ht : t = executingMessageHash
    · simp [destinationTopics, destinationTopicStep, ht, decodeExecutingMessage, hdec]
    · have hts : executingMessageHash ∈ ts := by
        rcases List.mem_cons.mp hmem with h1 | h1
        · exact absurd h1.symm ht
        · exact h1
      simp only [destinationTopics, destinationTopicStep, if_neg ht]
      exact ih st hts

theorem processDestinationLogs_append (pre rest : List Log) (st : State) :
    processDestinationLogs (pre ++ rest) st =
      match processDestinationLogs pre st with
      | .error e => .error e
      | .ok st1 => processDestinationLogs rest st1 := by
  induction pre generalizing st with
  | nil => rfl
  | cons l ls ih =>
    simp only [List.cons_append, processDestinationLogs]
    cases processDestinationLog st l with
    | error e => rfl
    | ok st1 => exact ih st1

theorem processDestinationLogs_filter (logs : List Log) (st : State) :
    processDestinationLogs (logs.filter (fun l => !passedOver l)) st =
      processDestinationLogs logs st := by
  induction logs generalizing st with
  | nil => rfl
  | cons l ls ih =>
    by_cases hp : passedOver l = true
    · simp only [List.filter, hp, Bool.not_true, processDestinationLogs,
        processDestinationLog_passedOver l st hp]
      exact ih st
    · have hp2 : passedOver l = false := by simpa using hp
      simp only [List.filter, hp2, Bool.not_false, processDestinationLogs]
      cases processDestinationLog st l with
      | error e => rfl
      | ok st1 => exact ih st1

theorem sourceTopics_heap (l : Log) (b : Block) (c : Chain) (topics : List Hash) (st : State) :
    (topics.foldl (sourceTopicStep l b c) st).heap =
      st.heap ++ List.replicate (topics.count initiatingMessageHash) (sourceIdentifier l b c) := by
  induction topics generalizing st with
  | nil => simp
  | cons t ts ih =>
    by_cases ht : t = initiatingMessageHash
    · subst ht
      simp only [List.foldl_cons, sourceTopicStep, if_true, ih, List.count_cons_self,
        List.replicate_succ, List.append_assoc, List.singleton_append]
    · have hne : (t == initiatingMessageHash) = false := by simpa using ht
      simp only [List.foldl_cons, sourceTopicStep, if_neg ht, ih, List.count_cons, hne]
      simp

/-! ## Helper lemmas: bytes and big-endian integers -/

theorem byte_eq_iff (n : Nat) (b : Byte) : byte n = b ↔ n % 256 = b.val := by
  constructor
  · intro h; rw [← h]; rfl
  · intro h; apply Fin.ext; exact h

theorem bigEndian_cons_aux (bs : List Byte) (acc : Nat) :
    bs.foldl (fun acc b => acc * 256 + b.val) acc = acc * 256 ^ bs.length + bigEndian bs := by
  induction bs generalizing acc with
  | nil => simp [bigEndian]
  | cons b bs ih =>
    simp only [List.foldl_cons, bigEndian, List.length_cons]
    rw [ih, ih (0 * 256 + b.val)]
    ring

theorem bigEndian_cons (b : Byte) (bs : List Byte) :
    bigEndian (b :: bs) = b.val * 256 ^ bs.length + bigEndian bs := by
  simp only [bigEndian, List.foldl_cons]
  rw [bigEndian_cons_aux]
  simp [bigEndian]

theorem bigEndian_lt (bs : List Byte) : bigEndian bs < 256 ^ bs.length := by
  induction bs with
  | nil => simp [bigEndian]
  | cons b bs ih =>
    rw [bigEndian_cons, List.length_cons, pow_succ]
    have hb := b.isLt
    nlinarith

theorem putint_bigEndian (bs : List Byte) (h1 : 1 ≤ bs.length) (h8 : bs.length ≤ 8)
    (hcanon : 2 ≤ bs.length → bs.head? ≠ some 0) : putint (bigEndian bs) = bs := by
  match bs, h1, h8, hcanon with
  | [], h, _, _ => simp at h
  | [b1], _, _, hc =>
    have := b1.isLt
    simp only [bigEndian, List.foldl, putint]
    rw [if_pos (by omega)]
    simp only [List.cons.injEq, byte_eq_iff, and_true]
    omega
  | [b1, b2], _, _, hc =>
    have := b1.isLt
    have := b2.isLt
    have h0 : b1.val ≠ 0 := by
      intro h; apply hc (by simp); simp; exact Fin.ext h
    simp only [bigEndian, List.foldl, putint]
    rw [if_neg (by omega), if_pos (by omega)]
    simp only [List.cons.injEq, byte_eq_iff, and_true]
    omega
  | [b1, b2, b3], _, _, hc =>
    have := b1.isLt
    have := b2.isLt
    have := b3.isLt
    have h0 : b1.val ≠ 0 := by
      intro h; apply hc (by simp); simp; exact Fin.ext h
    simp only [bigEndian, List.foldl, putint]
    rw [if_neg (by omega), if_neg (by omega), if_pos (by omega)]
    simp only [List.cons.injEq, byte_eq_iff, and_true]
    omega
  | [b1, b2, b3, b4], _, _, hc =>
    have := b1.isLt
    have := b2.isLt
    have := b3.isLt
    have := b4.isLt
    have h0 : b1.val ≠ 0 := by
      intro h; apply hc (by simp); simp; exact Fin.ext h
    simp only [bigEndian, List.foldl, putint]
    rw [if_neg (by omega), if_neg (by omega), if_neg (by omega), if_pos (by omega)]
    simp only [List.cons.injEq, byte_eq_iff, and_true]
    omega
  | [b1, b2, b3, b4, b5], _, _, hc =>
    have := b1.isLt
    have := b2.isLt
    have := b3.isLt
    have := b4.isLt
    have := b5.isLt
    have h0 : b1.val ≠ 0 := by
      intro h; apply hc (by simp); simp; exact Fin.ext h
    simp only [bigEndian, List.foldl, putint]
    rw [if_neg (by omega), if_neg (by omega), if_neg (by omega), if_neg (by omega), if_pos (by omega)]
    simp only [List.cons.injEq, byte_eq_iff, and_true]
    omega
  | [b1, b2, b3, b4, b5, b6], _, _, hc =>
    have := b1.isLt
    have := b2.isLt
    have := b3.isLt
    have := b4.isLt
    have := b5.isLt
    have := b6.isLt
    have h0 : b1.val ≠ 0 := by
      intro h; apply hc (by simp); simp; exact Fin.ext h
    simp only [bigEndian, List.foldl, putint]
    rw [if_neg (by omega), if_neg (by omega), if_neg (by omega), if_neg (by omega), if_neg (by omega), if_pos (by omega)]
    simp only [List.cons.injEq, byte_eq_iff, and_true]
    omega
  | [b1, b2, b3, b4, b5, b6, b7], _, _, hc =>
    have := b1.isLt
    have := b2.isLt
    have := b3.isLt
    have := b4.isLt
    have := b5.isLt
    have := b6.isLt
    have := b7.isLt
    have h0 : b1.val ≠ 0 := by
      intro h; apply hc (by simp); simp; exact Fin.ext h
    simp only [bigEndian, List.foldl, putint]
    rw [if_neg (by omega), if_neg (by omega), if_neg (by omega), if_neg (by omega), if_neg (by omega), if_neg (by omega), if_pos (by omega)]
    simp only [List.cons.injEq, byte_eq_iff, and_true]
    omega
  | [b1, b2, b3, b4, b5, b6, b7, b8], _, _, hc =>
    have := b1.isLt
    have := b2.isLt
    have := b3.isLt
    have := b4.isLt
    have := b5.isLt
    have := b6.isLt
    have := b7.isLt
    have := b8.isLt
    have h0 : b1.val ≠ 0 := by
      intro h; apply hc (by simp); simp; exact Fin.ext h
    simp only [bigEndian, List.foldl, putint]
    rw [if_neg (by omega), if_neg (by omega), if_neg (by omega), if_neg (by omega), if_neg (by omega), if_neg (by omega), if_neg (by omega)]
    simp only [List.cons.injEq, byte_eq_iff, and_true]
    omega
  | _ :: _ :: _ :: _ :: _ :: _ :: _ :: _ :: _ :: _, _, h, _ =>
    simp only [List.length_cons] at h
    omega

theorem bigEndian_putint (i : Nat) (h : i < 2 ^ 64) : bigEndian (putint i) = i := by
  unfold putint
  split_ifs <;> simp only [bigEndian, List.foldl, byte] <;> omega

theorem putint_length (i : Nat) : 1 ≤ (putint i).length ∧ (putint i).length ≤ 8 := by
  unfold putint
  split_ifs <;> simp

theorem putint_length_one (i : Nat) (h : i < 256) : putint i = [byte i] := by
  unfold putint
  rw [if_pos (by omega)]

theorem putint_length_ge_two (i : Nat) (h : 256 ≤ i) : 2 ≤ (putint i).length := by
  unfold putint
  rw [if_neg (by omega)]
  split_ifs <;> simp

theorem putint_head (i : Nat) (h : i < 2 ^ 64) (h2 : 2 ≤ (putint i).length) :
    (putint i).head? ≠ some 0 := by
  unfold putint at h2 ⊢
  split_ifs at h2 ⊢ <;> simp only [List.head?_cons, ne_eq, Option.some.injEq, Fin.ext_iff, byte,
      List.length_cons, List.length_nil, Fin.val_zero] at h2 ⊢ <;> omega

theorem bigEndian_ge (bs : List Byte) (h2 : 2 ≤ bs.length) (hcanon : bs.head? ≠ some 0) :
    256 ≤ bigEndian bs := by
  match bs, h2, hcanon with
  | b :: c :: rest, _, hc =>
    have h0 : b.val ≠ 0 := by
      intro h; apply hc; simp; exact Fin.ext h
    rw [bigEndian_cons, List.length_cons, pow_succ]
    have : 1 ≤ 256 ^ rest.length := Nat.one_le_pow _ _ (by decide)
    have : 1 ≤ b.val := by omega
    nlinarith

/-! ## Helper lemmas: the stream primitives -/

theorem byte_val_of_lt (n : Nat) (h : n < 256) : (byte n).val = n := by
  simp [byte, Nat.mod_eq_of_lt h]

theorem byte_val_self (b : Byte) : byte b.val = b := by
  apply Fin.ext
  simp [byte, Nat.mod_eq_of_lt b.isLt]

theorem stackAfter_zero (stack : List Nat) : stackAfter stack 0 = some stack := by
  cases stack <;> simp [stackAfter]

theorem stackAfter_add (st st1 st2 : List Nat) (n m : Nat)
    (h1 : stackAfter st n = some st1) (h2 : stackAfter st1 m = some st2) :
    stackAfter st (n + m) = some st2 := by
  cases st with
  | nil =>
    simp [stackAfter] at h1
    subst h1
    simpa [stackAfter] using h2
  | cons L rest =>
    simp only [stackAfter] at h1
    split at h1
    · simp at h1
      subst h1
      simp only [stackAfter] at h2
      split at h2
      · simp at h2
        subst h2
        simp only [stackAfter]
        rw [if_pos (by omega)]
        congr 2
        omega
      · simp at h2
    · simp at h1

theorem Consumes.refl (s : Stream) : Consumes s s [] :=
  ⟨by simp, by simp [stackAfter_zero]⟩

theorem Consumes.trans {s s1 s2 : Stream} {a b : List Byte}
    (h1 : Consumes s s1 a) (h2 : Consumes s1 s2 b) : Consumes s s2 (a ++ b) :=
  ⟨by rw [h1.input, h2.input, List.append_assoc],
   by rw [List.length_append]; exact stackAfter_add _ _ _ _ _ h1.stack h2.stack⟩

theorem Consumes.eq_of_nil {s s1 : Stream} (h : Consumes s s1 []) : s1 = s := by
  obtain ⟨h1, h2⟩ := h
  cases s; cases s1
  simp [stackAfter_zero] at h1 h2
  simp [h1, h2]

theorem willRead_ok_iff (s s1 : Stream) (n : Nat) :
    s.willRead n = .ok s1 ↔
      n ≤ s.r.length ∧ s1.r = s.r ∧ stackAfter s.stack n = some s1.stack := by
  cases s with
  | mk r stack =>
  cases s1 with
  | mk r1 stack1 =>
  cases stack with
  | nil =>
    simp only [Stream.willRead, stackAfter]
    split
    · simp; omega
    · simp; constructor
      · rintro ⟨rfl, rfl⟩; exact ⟨by omega, rfl, rfl⟩
      · rintro ⟨_, rfl, rfl⟩; exact ⟨rfl, rfl⟩
  | cons L rest =>
    simp only [Stream.willRead, stackAfter]
    split
    · simp; intro _ _; omega
    · split
      · simp; omega
      · simp
        constructor
        · rintro ⟨rfl, rfl⟩; exact ⟨by omega, rfl, by omega, rfl⟩
        · rintro ⟨_, rfl, _, rfl⟩; exact ⟨rfl, rfl⟩

theorem readByte_ok_iff (s s1 : Stream) (b : Byte) :
    s.readByte = .ok (b, s1) ↔ Consumes s s1 [b] := by
  unfold Stream.readByte
  constructor
  · intro h
    split at h
    · simp at h
    · rename_i s0 h0
      rw [willRead_ok_iff] at h0
      obtain ⟨_, hr, hst⟩ := h0
      split at h
      · simp at h
      · rename_i b0 r0 hr0
        simp at h
        obtain ⟨rfl, rfl⟩ := h
        exact ⟨by simp [← hr, hr0], by simpa using hst⟩
  · rintro ⟨hin, hst⟩
    have h0 : s.willRead 1 = .ok { r := s.r, stack := s1.stack } := by
      rw [willRead_ok_iff]
      exact ⟨by simp [hin], rfl, by simpa using hst⟩
    rw [h0]
    simp [hin]

theorem readFull_ok_iff (s s1 : Stream) (n : Nat) (bs : List Byte) :
    s.readFull n = .ok (bs, s1) ↔ bs.length = n ∧ Consumes s s1 bs := by
  unfold Stream.readFull
  constructor
  · intro h
    split at h
    · simp at h
    · rename_i s0 h0
      rw [willRead_ok_iff] at h0
      obtain ⟨hn, hr, hst⟩ := h0
      split at h
      · simp at h
      · simp at h
        obtain ⟨rfl, rfl⟩ := h
        have hlen : (List.take n s0.r).length = n := by
          rw [List.length_take, hr]; omega
        exact ⟨hlen, by simp [hr], by simpa [hlen] using hst⟩
  · rintro ⟨hlen, hin, hst⟩
    have h0 : s.willRead n = .ok { r := s.r, stack := s1.stack } := by
      rw [willRead_ok_iff]
      exact ⟨by simp [hin, hlen], rfl, by simpa [hlen] using hst⟩
    rw [h0]
    simp [hin, hlen]

theorem readUint_ok_iff (s s1 : Stream) (size v : Nat) :
    s.readUint size = .ok (v, s1) ↔
      ∃ bs : List Byte, bs.length = size ∧ Consumes s s1 bs ∧ v = bigEndian bs ∧
        (2 ≤ size → bs.head? ≠ some 0) := by
  match size with
  | 0 =>
    simp only [Stream.readUint]
    constructor
    · intro h
      simp at h
      obtain ⟨rfl, rfl⟩ := h
      exact ⟨[], rfl, Consumes.refl _, rfl, by omega⟩
    · rintro ⟨bs, hlen, hc, hv, _⟩
      have hbs : bs = [] := List.length_eq_zero.mp hlen
      subst hbs
      rw [hc.eq_of_nil, hv]
      rfl
  | 1 =>
    simp only [Stream.readUint]
    constructor
    · intro h
      split at h
      · simp at h
      · rename_i b s0 h0
        simp at h
        obtain ⟨rfl, rfl⟩ := h
        exact ⟨[b], rfl, (readByte_ok_iff _ _ _).mp h0, by simp [bigEndian], by omega⟩
    · rintro ⟨bs, hlen, hc, hv, _⟩
      obtain ⟨b, rfl⟩ := List.length_eq_one.mp hlen
      rw [(readByte_ok_iff _ _ _).mpr hc, hv]
      simp [bigEndian]
  | n + 2 =>
    simp only [Stream.readUint]
    constructor
    · intro h
      split at h
      · simp at h
      · rename_i buf s0 h0
        obtain ⟨hlen, hc⟩ := (readFull_ok_iff _ _ _ _).mp h0
        split at h
        · simp at h
        · rename_i hhead
          simp at h
          obtain ⟨rfl, rfl⟩ := h
          exact ⟨buf, hlen, hc, rfl, fun _ => hhead⟩
    · rintro ⟨bs, hlen, hc, hv, hhead⟩
      rw [(readFull_ok_iff _ _ _ _).mpr ⟨hlen, hc⟩, hv]
      simp [hhead (by omega)]

theorem Consumes.cons {s s1 s2 : Stream} {b : Byte} {bs : List Byte}
    (h1 : Consumes s s1 [b]) (h2 : Consumes s1 s2 bs) : Consumes s s2 (b :: bs) := by
  simpa using h1.trans h2

theorem Consumes.split {s s2 : Stream} {a b : List Byte} (h : Consumes s s2 (a ++ b)) :
    ∃ s1, Consumes s s1 a ∧ Consumes s1 s2 b := by
  obtain ⟨hin, hst⟩ := h
  cases hs : s.stack with
  | nil =>
    rw [hs] at hst
    simp [stackAfter] at hst
    refine ⟨{ r := b ++ s2.r, stack := [] }, ⟨by simp [hin], by simp [hs, stackAfter]⟩,
      ⟨rfl, by simp [stackAfter, hst]⟩⟩
  | cons L rest =>
    rw [hs] at hst
    simp only [stackAfter, List.length_append] at hst
    split at hst
    · simp at hst
      refine ⟨{ r := b ++ s2.r, stack := (L - a.length) :: rest },
        ⟨by simp [hin], by simp [hs, stackAfter]; omega⟩, ⟨rfl, ?_⟩⟩
      simp only [stackAfter]
      rw [if_pos (by omega), ← hst]
      congr 2
      omega
    · simp at hst

theorem readKind_ok_iff (s s1 : Stream) (k : Kind) (size : Nat) (bv : Byte) :
    s.readKind = .ok (k, size, bv, s1) ↔ ∃ hdr, Header hdr k size bv ∧ Consumes s s1 hdr := by
  unfold Stream.readKind
  constructor
  · intro h
    split at h
    · split at h <;> simp at h
    · rename_i b s0 h0
      have hc0 := (readByte_ok_iff _ _ _).mp h0
      split at h
      · simp at h
        obtain ⟨rfl, rfl, rfl, rfl⟩ := h
        exact ⟨[b], .single b (by assumption), hc0⟩
      · split at h
        · simp at h
          obtain ⟨rfl, rfl, rfl, rfl⟩ := h
          exact ⟨[b], .shortString b (by omega) (by assumption), hc0⟩
        · split at h
          · split at h
            · simp at h
            · rename_i sz s2 h2
              obtain ⟨bs, hlen, hc, hv, hhead⟩ := (readUint_ok_iff _ _ _ _).mp h2
              split at h
              · simp at h
              · simp at h
                obtain ⟨rfl, rfl, rfl, rfl⟩ := h
                subst hv
                exact ⟨b :: bs, .longString b bs (by omega) (by assumption) hlen
                  (fun h2 => hhead (by omega)) (by omega), hc0.cons hc⟩
          · split at h
            · simp at h
              obtain ⟨rfl, rfl, rfl, rfl⟩ := h
              exact ⟨[b], .shortList b (by omega) (by assumption), hc0⟩
            · split at h
              · simp at h
              · rename_i sz s2 h2
                obtain ⟨bs, hlen, hc, hv, hhead⟩ := (readUint_ok_iff _ _ _ _).mp h2
                split at h
                · simp at h
                · simp at h
                  obtain ⟨rfl, rfl, rfl, rfl⟩ := h
                  subst hv
                  exact ⟨b :: bs, .longList b bs (by omega) hlen
                    (fun h2 => hhead (by omega)) (by omega), hc0.cons hc⟩
  · rintro ⟨hdr, hh, hc⟩
    cases hh with
    | single b h =>
      rw [(readByte_ok_iff _ _ _).mpr hc]
      simp [h]
    | shortString b h1 h2 =>
      rw [(readByte_ok_iff _ _ _).mpr hc]
      simp [h2, Nat.not_lt.mpr h1]
    | longString b bs h1 h2 hlen hcanon hsize =>
      have hc2 : Consumes s s1 ([b] ++ bs) := by simpa using hc
      obtain ⟨s0, hc0, hc1⟩ := hc2.split
      rw [(readByte_ok_iff _ _ _).mpr hc0]
      have hu : s0.readUint (b.val - 0xB7) = .ok (bigEndian bs, s1) :=
        (readUint_ok_iff _ _ _ _).mpr ⟨bs, hlen, hc1, rfl, fun h => hcanon (by omega)⟩
      have e1 : ¬ b.val < 0x80 := by omega
      have e2 : ¬ b.val < 0xB8 := by omega
      simp only [e1, e2, h2, if_true, if_false, hu, Nat.not_lt.mpr hsize]
    | shortList b h1 h2 =>
      rw [(readByte_ok_iff _ _ _).mpr hc]
      have e1 : ¬ b.val < 0x80 := by omega
      have e2 : ¬ b.val < 0xB8 := by omega
      have e3 : ¬ b.val < 0xC0 := by omega
      simp only [e1, e2, e3, h2, if_true, if_false]
    | longList b bs h1 hlen hcanon hsize =>
      have hc2 : Consumes s s1 ([b] ++ bs) := by simpa using hc
      obtain ⟨s0, hc0, hc1⟩ := hc2.split
      rw [(readByte_ok_iff _ _ _).mpr hc0]
      have hu : s0.readUint (b.val - 0xF7) = .ok (bigEndian bs, s1) :=
        (readUint_ok_iff _ _ _ _).mpr ⟨bs, hlen, hc1, rfl, fun h => hcanon (by omega)⟩
      have e1 : ¬ b.val < 0x80 := by omega
      have e2 : ¬ b.val < 0xB8 := by omega
      have e3 : ¬ b.val < 0xC0 := by omega
      have e4 : ¬ b.val < 0xF8 := by omega
      simp only [e1, e2, e3, e4, if_true, if_false, hu, Nat.not_lt.mpr hsize]

theorem Header.length_pos {hdr : List Byte} {k : Kind} {size : Nat} {bv : Byte}
    (h : Header hdr k size bv) : 1 ≤ hdr.length := by
  cases h <;> simp

theorem Consumes.limit {s s1 : Stream} {bs : List Byte} {L : Nat} {rest : List Nat}
    (h : Consumes s s1 bs) (hs : s.stack = L :: rest) :
    bs.length ≤ L ∧ s1.stack = (L - bs.length) :: rest := by
  have h2 := h.stack
  rw [hs] at h2
  simp only [stackAfter] at h2
  split at h2
  · simp at h2
    exact ⟨by assumption, h2.symm⟩
  · simp at h2

theorem Consumes.nil_stack {s s1 : Stream} {bs : List Byte}
    (h : Consumes s s1 bs) (hs : s.stack = []) : s1.stack = [] := by
  have h2 := h.stack
  rw [hs] at h2
  simpa [stackAfter] using h2.symm

theorem Kind_ok_iff (s s1 : Stream) (k : Kind) (size : Nat) (bv : Byte) :
    s.Kind = .ok (k, size, bv, s1) ↔
      ∃ hdr, Header hdr k size bv ∧ Consumes s s1 hdr ∧ size ≤ s1.r.length ∧
        (∀ L rest, s.stack = L :: rest → size ≤ L) := by
  unfold Stream.Kind
  constructor
  · intro h
    split at h
    · rename_i hs
      split at h
      · simp at h
      · rename_i k0 size0 bv0 s0 h0
        obtain ⟨hdr, hh, hc⟩ := (readKind_ok_iff _ _ _ _ _).mp h0
        split at h
        · simp at h
        · simp at h
          obtain ⟨rfl, rfl, rfl, rfl⟩ := h
          exact ⟨hdr, hh, hc, by omega, by intro L rest hL; rw [hs] at hL; simp at hL⟩
    · rename_i L rest hs
      split at h
      · simp at h
      · split at h
        · simp at h
        · rename_i k0 size0 bv0 s0 h0
          obtain ⟨hdr, hh, hc⟩ := (readKind_ok_iff _ _ _ _ _).mp h0
          split at h
          · simp at h
          · split at h
            · simp at h
            · simp at h
              obtain ⟨rfl, rfl, rfl, rfl⟩ := h
              refine ⟨hdr, hh, hc, by omega, ?_⟩
              intro L2 rest2 hL
              rw [hs] at hL
              simp at hL
              omega
  · rintro ⟨hdr, hh, hc, hlen, hlim⟩
    have hk := (readKind_ok_iff _ _ _ _ _).mpr ⟨hdr, hh, hc⟩
    split
    · rw [hk]
      simp only
      rw [if_neg (by omega)]
    · rename_i L rest hs
      have h1 := (hc.limit hs).1
      have h2 := hh.length_pos
      have h3 := hlim L rest hs
      rw [if_neg (by omega), hk]
      simp only
      rw [if_neg (by omega), if_neg (by omega)]

theorem uint_ok_iff (s s1 : Stream) (v : Nat) :
    s.uint 64 = .ok (v, s1) ↔ v < 2 ^ 64 ∧ Consumes s s1 (encodeUint64 v) := by
  unfold Stream.uint
  constructor
  · intro h
    split at h
    · simp at h
    · rename_i sz b s0 h0
      obtain ⟨hdr, hh, hc, _, _⟩ := (Kind_ok_iff _ _ _ _ _).mp h0
      split at h
      · simp at h
      · rename_i hb
        simp at h
        obtain ⟨rfl, rfl⟩ := h
        cases hh with
        | single b hlt =>
          have : encodeUint64 b.val = [b] := by
            unfold encodeUint64
            rw [if_neg hb, if_pos (by omega), byte_val_self]
          rw [this]
          exact ⟨by omega, hc⟩
    · rename_i size bv s0 h0
      obtain ⟨hdr, hh, hc, _, _⟩ := (Kind_ok_iff _ _ _ _ _).mp h0
      split at h
      · simp at h
      · rename_i hsize
        split at h
        · split at h <;> simp at h
        · rename_i v0 s2 h2
          obtain ⟨bs, hlen, hc2, hv, hhead⟩ := (readUint_ok_iff _ _ _ _).mp h2
          split at h
          · simp at h
          · rename_i hcanon
            simp at h
            obtain ⟨rfl, rfl⟩ := h
            have hlt := bigEndian_lt bs
            have hpow : (256 : Nat) ^ bs.length ≤ 256 ^ 8 :=
              Nat.pow_le_pow_right (by decide) (by omega)
            have hv64 : v0 < 2 ^ 64 := by
              rw [hv]
              have : (256 : Nat) ^ 8 = 2 ^ 64 := by norm_num
              omega
            refine ⟨hv64, ?_⟩
            cases hh with
            | shortString b h1 hb2 =>
              have hb : b = byte (0x80 + bs.length) := by
                symm
                rw [byte_eq_iff]
                omega
              have henc : encodeUint64 v0 = b :: bs := by
                by_cases h0 : bs.length = 0
                · have hnil : bs = [] := List.length_eq_zero.mp h0
                  subst hnil
                  simp only [bigEndian, List.foldl] at hv
                  subst hv
                  simp [encodeUint64, hb]
                · by_cases h1 : bs.length = 1
                  · obtain ⟨c, rfl⟩ := List.length_eq_one.mp h1
                    have hc128 : 128 ≤ v0 := by omega
                    have hcv : v0 = c.val := by simpa [bigEndian] using hv
                    have hp : putint v0 = [c] := by
                      rw [putint_length_one v0 (by omega), hcv, byte_val_self]
                    unfold encodeUint64
                    rw [if_neg (by omega), if_neg (by omega), hp, hb]
                  · have hge := bigEndian_ge bs (by omega) (hhead (by omega))
                    have hp : putint v0 = bs := by
                      rw [hv]
                      exact putint_bigEndian bs (by omega) (by omega) (fun _ => hhead (by omega))
                    unfold encodeUint64
                    rw [if_neg (by omega), if_neg (by omega), hp, hb]
              rw [henc]
              exact hc.cons hc2
            | longString b bs2 h1 hb2 hlen2 hcanon2 hsize2 =>
              omega
    · simp at h
  · rintro ⟨hv, hc⟩
    by_cases h0 : v = 0
    · subst h0
      have henc : encodeUint64 0 = [byte 0x80] := by simp [encodeUint64]
      rw [henc] at hc
      have hk : s.Kind = .ok (.String, 0, 0, s1) := by
        rw [Kind_ok_iff]
        refine ⟨[byte 0x80], ?_, hc, by omega, by intros; omega⟩
        exact Header.shortString (byte 0x80) (by decide) (by decide)
      rw [hk]
      simp [Stream.readUint]
    · by_cases h1 : v < 128
      · have henc : encodeUint64 v = [byte v] := by simp [encodeUint64, h0, h1]
        rw [henc] at hc
        have hbv : (byte v).val = v := byte_val_of_lt v (by omega)
        have hk : s.Kind = .ok (.Byte, 0, byte v, s1) := by
          rw [Kind_ok_iff]
          exact ⟨[byte v], Header.single (byte v) (by omega), hc, by omega, by intros; omega⟩
        rw [hk]
        simp only [hbv]
        rw [if_neg h0]
      · have henc : encodeUint64 v = byte (0x80 + (putint v).length) :: putint v := by
          simp [encodeUint64, h0, h1]
        rw [henc] at hc
        have hpl := putint_length v
        have hc2 : Consumes s s1 ([byte (0x80 + (putint v).length)] ++ putint v) := by
          simpa using hc
        obtain ⟨s0, hc0, hc1⟩ := hc2.split
        have hbv : (byte (0x80 + (putint v).length)).val = 0x80 + (putint v).length :=
          byte_val_of_lt _ (by omega)
        have hin := hc1.input
        have hk : s.Kind = .ok (.String, (putint v).length, 0, s0) := by
          rw [Kind_ok_iff]
          refine ⟨[byte (0x80 + (putint v).length)], ?_, hc0, ?_, ?_⟩
          · have := Header.shortString (byte (0x80 + (putint v).length)) (by omega) (by omega)
            rw [hbv] at this
            simpa using this
          · rw [hin]; simp
          · intro L rest hL
            have := (hc.limit hL).1
            simp at this
            omega
        have hu : s0.readUint (putint v).length = .ok (v, s1) := by
          rw [readUint_ok_iff]
          exact ⟨putint v, rfl, hc1, (bigEndian_putint v hv).symm, fun h => putint_head v hv h⟩
        rw [hk]
        simp only
        rw [if_neg (by omega), hu]
        simp only
        rw [if_neg (by omega)]

/-! ## Helper lemmas: the struct decoder -/

theorem Address.ofList_val (l : List Byte) (h : l.length = 20) : (Address.ofList l).val = l := by
  simp [Address.ofList, List.take_append_of_le_length (Nat.le_of_eq h.symm), ← h]

theorem Address.ofList_self (a : Address) : Address.ofList a.val = a :=
  Subtype.ext (Address.ofList_val a.val a.property)

theorem decodeByteArray_ok_iff (s s1 : Stream) (a : Address) :
    decodeByteArray s = .ok (a, s1) ↔ Consumes s s1 (encodeAddress a) := by
  unfold decodeByteArray
  constructor
  · intro h
    split at h
    · simp at h
    · simp at h
    · rename_i size bv s0 h0
      obtain ⟨hdr, hh, hc, _, _⟩ := (Kind_ok_iff _ _ _ _ _).mp h0
      split at h
      · simp at h
      · split at h
        · simp at h
        · split at h
          · simp at h
          · rename_i slice s2 h2
            obtain ⟨hlen, hc2⟩ := (readFull_ok_iff _ _ _ _).mp h2
            have hsz : size = 20 := by omega
            rw [if_neg (by omega)] at h
            simp at h
            obtain ⟨rfl, rfl⟩ := h
            cases hh with
            | shortString b h1 hb2 =>
              have hb : b = byte (0x80 + 20) := by
                symm
                rw [byte_eq_iff]
                omega
              unfold encodeAddress
              rw [Address.ofList_val slice hlen, ← hb]
              exact hc.cons hc2
            | longString b bs2 h1 hb2 hlen2 hcanon2 hsize2 =>
              omega
    · simp at h
  · intro hc
    unfold encodeAddress at hc
    have hc2 : Consumes s s1 ([byte (0x80 + 20)] ++ a.val) := by simpa using hc
    obtain ⟨s0, hc0, hc1⟩ := hc2.split
    have hin := hc1.input
    have hk : s.Kind = .ok (.String, 20, 0, s0) := by
      rw [Kind_ok_iff]
      refine ⟨[byte (0x80 + 20)], Header.shortString (byte (0x80 + 20)) (by decide) (by decide),
        hc0, ?_, ?_⟩
      · rw [hin]; simp [a.property]
      · intro L rest hL
        have := (hc.limit hL).1
        simp [a.property] at this
        omega
    have hf : s0.readFull 20 = .ok (a.val, s1) :=
      (readFull_ok_iff _ _ _ _).mpr ⟨a.property, hc1⟩
    rw [hk]
    simp only
    rw [if_neg (by omega), if_neg (by omega), hf]
    simp only
    rw [if_neg (by omega), Address.ofList_self]

theorem listHeader_of_header {hdr : List Byte} {size : Nat} {bv : Byte}
    (h : Header hdr .List size bv) : hdr = listHeader size := by
  cases h with
  | shortList b h1 h2 =>
    unfold listHeader
    rw [if_pos (by omega)]
    simp only [List.cons.injEq, and_true]
    symm
    rw [byte_eq_iff]
    omega
  | longList b bs h1 hlen hcanon hsize =>
    have hb := b.isLt
    have hp : putint (bigEndian bs) = bs :=
      putint_bigEndian bs (by omega) (by omega) hcanon
    unfold listHeader
    rw [if_neg (by omega), hp]
    simp only [List.cons.injEq, and_true]
    symm
    rw [byte_eq_iff]
    omega

theorem header_of_listHeader (size : Nat) (h : size < 2 ^ 64) :
    Header (listHeader size) .List size 0 := by
  unfold listHeader
  by_cases h56 : size < 56
  · rw [if_pos h56]
    have hbv : (byte (0xC0 + size)).val = 0xC0 + size := byte_val_of_lt _ (by omega)
    have := Header.shortList (byte (0xC0 + size)) (by omega) (by omega)
    rw [hbv] at this
    simpa using this
  · rw [if_neg h56]
    have hpl := putint_length size
    have hbv : (byte (0xF7 + (putint size).length)).val = 0xF7 + (putint size).length :=
      byte_val_of_lt _ (by omega)
    have := Header.longList (byte (0xF7 + (putint size).length)) (putint size) (by omega)
      (by omega) (fun h2 => putint_head size h h2) (by rw [bigEndian_putint size h]; omega)
    rw [bigEndian_putint size h] at this
    exact this

theorem List_ok_top (s s0 : Stream) (size : Nat) (hs : s.stack = [])
    (h : s.List = .ok (size, s0)) :
    s.r = listHeader size ++ s0.r ∧ s0.stack = [size] ∧ size ≤ s0.r.length := by
  unfold Stream.List at h
  split at h
  · simp at h
  · rename_i k sz bv s1 h1
    obtain ⟨hdr, hh, hc, hlen, _⟩ := (Kind_ok_iff _ _ _ _ _).mp h1
    have hst := hc.nil_stack hs
    split at h
    · simp at h
    · rename_i hk
      have hk2 : k = .List := by simpa using hk
      subst hk2
      rw [hst] at h
      simp at h
      obtain ⟨rfl, rfl⟩ := h
      exact ⟨by rw [hc.input, listHeader_of_header hh], rfl, hlen⟩

theorem List_top_of_header (r0 : List Byte) (size : Nat) (h : size < 2 ^ 64)
    (hlen : size ≤ r0.length) :
    Stream.List { r := listHeader size ++ r0, stack := [] } =
      .ok (size, { r := r0, stack := [size] }) := by
  have hk : Stream.Kind { r := listHeader size ++ r0, stack := [] } =
      .ok (.List, size, 0, { r := r0, stack := [] }) := by
    rw [Kind_ok_iff]
    exact ⟨listHeader size, header_of_listHeader size h, ⟨rfl, rfl⟩, hlen, by
      intro L rest hL; simp at hL⟩
  unfold Stream.List
  rw [hk]
  simp

theorem ListEnd_ok_iff (s s1 : Stream) :
    s.ListEnd = .ok s1 ↔ ∃ rest, s.stack = 0 :: rest ∧ s1 = { s with stack := rest } := by
  unfold Stream.ListEnd
  constructor
  · intro h
    split at h
    · simp at h
    · rename_i L rest hs
      split at h
      · simp at h
      · simp at h
        exact ⟨rest, by rw [hs]; congr 1; omega, h.symm⟩
  · rintro ⟨rest, hs, rfl⟩
    rw [hs]
    simp

theorem encodeUint64_length (v : Nat) :
    1 ≤ (encodeUint64 v).length ∧ (encodeUint64 v).length ≤ 9 := by
  have := putint_length v
  unfold encodeUint64
  split_ifs
  · simp
  · simp
  · simp only [List.length_cons]
    omega

theorem identifierPayload_length (id : Identifier) :
    25 ≤ (identifierPayload id).length ∧ (identifierPayload id).length ≤ 57 := by
  have h1 := encodeUint64_length id.BlockNumber
  have h2 := encodeUint64_length id.LogIndex
  have h3 := encodeUint64_length id.Timestamp
  have h4 := encodeUint64_length id.ChainId
  simp only [identifierPayload, encodeAddress, List.length_append, List.length_cons,
    id.Origin.property]
  omega

theorem decodeIdentifierStruct_ok (data : List Byte) (id : Identifier) (s6 : Stream)
    (h : decodeIdentifierStruct { r := data, stack := [] } = .ok (id, s6)) :
    id.valid ∧ data = encodeIdentifier id ++ s6.r := by
  unfold decodeIdentifierStruct at h
  split at h
  · simp at h
  · rename_i size s0 h0
    obtain ⟨hdata, hst0, _⟩ := List_ok_top _ _ _ rfl h0
    split at h
    · simp at h
    · rename_i origin s1 h1
      have c1 := (decodeByteArray_ok_iff _ _ _).mp h1
      split at h
      · simp at h
      · rename_i blockNumber s2 h2
        obtain ⟨v1, c2⟩ := (uint_ok_iff _ _ _).mp h2
        split at h
        · simp at h
        · rename_i logIndex s3 h3
          obtain ⟨v2, c3⟩ := (uint_ok_iff _ _ _).mp h3
          split at h
          · simp at h
          · rename_i timestamp s4 h4
            obtain ⟨v3, c4⟩ := (uint_ok_iff _ _ _).mp h4
            split at h
            · simp at h
            · rename_i chainId s5 h5
              obtain ⟨v4, c5⟩ := (uint_ok_iff _ _ _).mp h5
              split at h
              · simp at h
              · rename_i s6b h6
                obtain ⟨rest, hs5, hs6⟩ := (ListEnd_ok_iff _ _).mp h6
                simp at h
                obtain ⟨rfl, rfl⟩ := h
                have call := (((c1.trans c2).trans c3).trans c4).trans c5
                have hlim := call.limit hst0
                rw [hs5] at hlim
                have hsize : size = (identifierPayload
                    { Origin := origin, BlockNumber := blockNumber, LogIndex := logIndex,
                      Timestamp := timestamp, ChainId := chainId }).length := by
                  simp only [identifierPayload]
                  have := hlim.2
                  simp only [List.cons.injEq] at this
                  omega
                refine ⟨⟨v1, v2, v3, v4⟩, ?_⟩
                simp only at hdata
                rw [hdata, call.input, hs6, encodeIdentifier, ← hsize]
                simp [identifierPayload]

theorem decodeIdentifierStruct_encode (id : Identifier) (hv : id.valid) (rest : List Byte) :
    decodeIdentifierStruct { r := encodeIdentifier id ++ rest, stack := [] } =
      .ok (id, { r := rest, stack := [] }) := by
  have hlen := identifierPayload_length id
  have hL : Stream.List { r := encodeIdentifier id ++ rest, stack := [] } =
      .ok ((identifierPayload id).length,
        { r := identifierPayload id ++ rest, stack := [(identifierPayload id).length] }) := by
    have := List_top_of_header (identifierPayload id ++ rest) (identifierPayload id).length
      (by omega) (by simp)
    simpa [encodeIdentifier] using this
  have call : Consumes
      { r := identifierPayload id ++ rest, stack := [(identifierPayload id).length] }
      { r := rest, stack := [0] } (identifierPayload id) :=
    ⟨rfl, by simp [stackAfter]⟩
  have call0 : Consumes
      { r := identifierPayload id ++ rest, stack := [(identifierPayload id).length] }
      { r := rest, stack := [0] }
      (encodeAddress id.Origin ++ encodeUint64 id.BlockNumber ++ encodeUint64 id.LogIndex
        ++ encodeUint64 id.Timestamp ++ encodeUint64 id.ChainId) := call
  obtain ⟨s4, call4, c5⟩ := call0.split
  obtain ⟨s3, call3, c4⟩ := call4.split
  obtain ⟨s2, call2, c3⟩ := call3.split
  obtain ⟨s1, c1, c2⟩ := call2.split
  obtain ⟨v1, v2, v3, v4⟩ := hv
  unfold decodeIdentifierStruct
  rw [hL]
  simp only
  rw [(decodeByteArray_ok_iff _ _ _).mpr c1]
  simp only
  rw [(uint_ok_iff _ _ _).mpr ⟨v1, c2⟩]
  simp only
  rw [(uint_ok_iff _ _ _).mpr ⟨v2, c3⟩]
  simp only
  rw [(uint_ok_iff _ _ _).mpr ⟨v3, c4⟩]
  simp only
  rw [(uint_ok_iff _ _ _).mpr ⟨v4, c5⟩]
  simp [Stream.ListEnd]

theorem rlpDecode_encode (id : Identifier) (hv : id.valid) (rest : List Byte) :
    rlpDecode (encodeIdentifier id ++ rest) = .ok id := by
  unfold rlpDecode
  rw [decodeIdentifierStruct_encode id hv rest]

theorem rlpDecode_ok (data : List Byte) (id : Identifier) (h : rlpDecode data = .ok id) :
    id.valid ∧ ∃ rest, data = encodeIdentifier id ++ rest := by
  unfold rlpDecode at h
  split at h
  · simp at h
  · rename_i id0 s6 h0
    simp at h
    subst h
    obtain ⟨hv, hd⟩ := decodeIdentifierStruct_ok data id0 s6 h0
    exact ⟨hv, s6.r, hd⟩

/-! ## Helper lemmas: fixtures -/

theorem listHeader_ne_nil (size : Nat) : listHeader size ≠ [] := by
  unfold listHeader
  split_ifs <;> simp

theorem encodeIdentifier_append_ne_nil (id : Identifier) (rest : List Byte) :
    ([] : List Byte) ≠ encodeIdentifier id ++ rest := by
  intro h
  have h2 := congrArg List.length h
  have h3 : 1 ≤ (listHeader (identifierPayload id).length).length :=
    List.length_pos.mpr (listHeader_ne_nil _)
  simp only [encodeIdentifier, List.length_nil, List.length_append] at h2
  omega

theorem scenarioId_valid : scenarioId.valid := by
  unfold Identifier.valid
  decide

/-! ## Helper lemmas: what the destination loop stores -/

theorem MsgMap.lookup_none_of_wf (m : MsgMap) (n : Nat) (h : ∀ e ∈ m, e.1 < n) :
    m.lookup n = none := by
  induction m with
  | nil => rfl
  | cons e es ih =>
    obtain ⟨k, v⟩ := e
    have hk : k < n := h (k, v) (List.mem_cons_self _ _)
    have hne : (n == k) = false := by
      simp
      omega
    simp only [List.lookup, hne]
    exact ih (fun e he => h e (List.mem_cons_of_mem _ he))

theorem MsgMap.any_false_of_wf (m : MsgMap) (n : Nat) (h : ∀ e ∈ m, e.1 < n) :
    m.any (fun e => e.1 == n) = false := by
  rw [List.any_eq_false]
  intro e he
  have := h e he
  simp
  omega

theorem destinationTopicStep_match (l : Log) (m : Hash) (st : State) (id : Identifier)
    (hwf : st.wf) (hdec : rlpDecode l.Data = .ok id) :
    destinationTopicStep l m st executingMessageHash =
      .ok ⟨st.heap ++ [id], st.initiatingMsgMap ++ [(st.heap.length, some m)]⟩ := by
  have hget : MsgMap.get st.initiatingMsgMap st.heap.length = none := by
    unfold MsgMap.get
    rw [MsgMap.lookup_none_of_wf _ _ hwf]
  have hset : MsgMap.set st.initiatingMsgMap st.heap.length (some m) =
      st.initiatingMsgMap ++ [(st.heap.length, some m)] := by
    unfold MsgMap.set
    rw [MsgMap.any_false_of_wf _ _ hwf]
    simp
  simp only [destinationTopicStep, if_true, decodeExecutingMessage, hdec, hget, hset]

theorem State.wf_push (st : State) (id : Identifier) (v : Option Hash) (hwf : st.wf) :
    State.wf ⟨st.heap ++ [id], st.initiatingMsgMap ++ [(st.heap.length, v)]⟩ := by
  intro e he
  simp only [List.mem_append, List.mem_singleton] at he
  simp only [List.length_append, List.length_singleton]
  rcases he with he | he
  · have := hwf e he
    omega
  · subst he
    simp

theorem destinationTopics_decodable (l : Log) (m : Hash) (id : Identifier)
    (hdec : rlpDecode l.Data = .ok id) (topics : List Hash) (st : State) (hwf : st.wf) :
    ∃ st1, destinationTopics l m topics st = .ok st1 ∧ st1.wf ∧
      st1.heap = st.heap ++ List.replicate (topics.count executingMessageHash) id ∧
      st1.initiatingMsgMap = st.initiatingMsgMap ++
        (List.range (topics.count executingMessageHash)).map
          (fun i => (st.heap.length + i, some m)) := by
  induction topics generalizing st with
  | nil => exact ⟨st, rfl, hwf, by simp, by simp⟩
  | cons t ts ih =>
    by_cases ht : t = executingMessageHash
    · subst ht
      have hstep := destinationTopicStep_match l m st id hwf hdec
      obtain ⟨st1, h1, hwf1, hheap, hmap⟩ := ih _ (State.wf_push st id (some m) hwf)
      refine ⟨st1, ?_, hwf1, ?_, ?_⟩
      · simp only [destinationTopics, hstep]
        exact h1
      · rw [hheap, List.count_cons_self, List.replicate_succ]
        simp
      · rw [hmap, List.count_cons_self, List.range_succ_eq_map]
        simp only [List.length_append, List.length_singleton, List.map_cons, List.map_map,
          List.append_assoc, List.singleton_append, Nat.add_zero]
        congr 2
        apply List.map_congr_left
        intro i _
        simp only [Function.comp]
        congr 1
        omega
    · have hne : (t == executingMessageHash) = false := by simpa using ht
      obtain ⟨st1, h1, hwf1, hheap, hmap⟩ := ih st hwf
      refine ⟨st1, ?_, hwf1, ?_, ?_⟩
      · simp only [destinationTopics, destinationTopicStep, if_neg ht]
        exact h1
      · rw [hheap, List.count_cons, hne]
        simp
      · rw [hmap, List.count_cons, hne]
        simp

theorem destinationTopics_heap_length (l : Log) (m : Hash) (topics : List Hash)
    (st st1 : State) (h : destinationTopics l m topics st = .ok st1) :
    st1.heap.length = st.heap.length + topics.count executingMessageHash := by
  induction topics generalizing st with
  | nil =>
    simp only [destinationTopics, Except.ok.injEq] at h
    subst h
    simp
  | cons t ts ih =>
    simp only [destinationTopics] at h
    split at h
    · simp at h
    · rename_i st2 h2
      have h3 := ih st2 h
      by_cases ht : t = executingMessageHash
      · subst ht
        simp only [destinationTopicStep, if_true, decodeExecutingMessage] at h2
        split at h2
        · simp at h2
        · rename_i p heap hd
          split at hd
          · simp at hd
          · rename_i id hid
            simp only [Except.ok.injEq, Prod.mk.injEq] at hd
            obtain ⟨_, rfl⟩ := hd
            have hlen : st2.heap.length = st.heap.length + 1 := by
              split at h2 <;> (simp only [Except.ok.injEq] at h2; subst h2; simp)
            rw [h3, hlen, List.count_cons_self]
            omega
      · have hne : (t == executingMessageHash) = false := by simpa using ht
        simp only [destinationTopicStep, if_neg ht, Except.ok.injEq] at h2
        subst h2
        rw [h3, List.count_cons, hne]
        simp

theorem passedOver_false (l : Log) (h : passedOver l = false) :
    (∃ a m rest, l.Topics = a :: m :: rest) ∧ executingMessageHash ∈ l.Topics := by
  unfold passedOver at h
  simp at h
  obtain ⟨hlen, hmem⟩ := h
  refine ⟨?_, hmem⟩
  match hT : l.Topics, hlen with
  | a :: m :: rest, _ => exact ⟨a, m, rest, rfl⟩

theorem processDestinationLog_not_passedOver (l : Log) (st : State)
    (h : passedOver l = false) : processDestinationLog st l ≠ .ok st := by
  obtain ⟨⟨a, m, rest, hT⟩, hmem⟩ := passedOver_false l h
  intro hok
  unfold processDestinationLog at hok
  rw [hT] at hok
  simp only at hok
  rw [← hT] at hok
  have hlen := destinationTopics_heap_length l m l.Topics st st hok
  have hc : 0 < l.Topics.count executingMessageHash := List.count_pos_iff.mpr hmem
  omega

theorem processDestinationLog_stores (l : Log) (st st1 : State) (hwf : st.wf)
    (h : passedOver l = false) (hok : processDestinationLog st l = .ok st1) :
    ∃ a m rest id, l.Topics = a :: m :: rest ∧ rlpDecode l.Data = .ok id ∧
      st1.heap = st.heap ++ List.replicate (l.Topics.count executingMessageHash) id ∧
      st1.initiatingMsgMap = st.initiatingMsgMap ++
        (List.range (l.Topics.count executingMessageHash)).map
          (fun i => (st.heap.length + i, some m)) ∧
      0 < l.Topics.count executingMessageHash := by
  obtain ⟨⟨a, m, rest, hT⟩, hmem⟩ := passedOver_false l h
  have hc : 0 < l.Topics.count executingMessageHash := List.count_pos_iff.mpr hmem
  unfold processDestinationLog at hok
  rw [hT] at hok
  simp only at hok
  rw [← hT] at hok
  cases hd : rlpDecode l.Data with
  | error e =>
    rw [destinationTopics_decode_error l m l.Topics st e hd hmem] at hok
    simp at hok
  | ok id =>
    obtain ⟨st2, h2, _, hheap, hmap⟩ := destinationTopics_decodable l m id hd l.Topics st hwf
    rw [h2] at hok
    simp only [Except.ok.injEq] at hok
    subst hok
    exact ⟨a, m, rest, id, hT, rfl, hheap, hmap, hc⟩

/-! ## Claims -/

/-- C1. Round trip: for every identifier with `uint64` fields, and every log
whose data is the RLP encoding of that identifier, `decodeExecutingMessage`
returns no error, and the pointer it returns addresses an identifier equal to
the encoded one in all five fields. -/
theorem decodeExecutingMessage_roundtrip (id : Identifier) (messageLog : Log)
    (heap : List Identifier) (hv : id.valid) (hdata : messageLog.Data = encodeIdentifier id) :
    decodeExecutingMessage messageLog heap = .ok (heap.length, heap ++ [id]) ∧
      (heap ++ [id]).get? heap.length = some id := by
  constructor
  · have h := rlpDecode_encode id hv []
    rw [List.append_nil] at h
    unfold decodeExecutingMessage
    rw [hdata, h]
  · simp

/-- C1, witness: the destination log of scenario S1 decodes to its identifier. -/
theorem decodeExecutingMessage_roundtrip_witness :
    scenarioId.valid ∧ scenarioDestinationLog.Data = encodeIdentifier scenarioId ∧
      decodeExecutingMessage scenarioDestinationLog [] = .ok (0, [scenarioId]) :=
  ⟨scenarioId_valid, rfl,
    (decodeExecutingMessage_roundtrip scenarioId scenarioDestinationLog [] scenarioId_valid rfl).1⟩

/-- C4, counterexample. The data of `trailingByteLog` is the encoding of an
identifier followed by one more byte, so it is not the encoding of any
identifier, and yet `decodeExecutingMessage` returns an identifier. -/
theorem decodeExecutingMessage_accepts_trailing_byte :
    (∀ id : Identifier, id.valid → trailingByteLog.Data ≠ encodeIdentifier id) ∧
      decodeExecutingMessage trailingByteLog [] = .ok (0, [scenarioId]) := by
  have hdec : rlpDecode trailingByteLog.Data = .ok scenarioId :=
    rlpDecode_encode scenarioId scenarioId_valid [0]
  constructor
  · intro id hv heq
    have h1 := rlpDecode_encode id hv []
    rw [List.append_nil, ← heq, hdec] at h1
    have hid : scenarioId = id := by simpa using h1
    subst hid
    simp [trailingByteLog] at heq
  · unfold decodeExecutingMessage
    rw [hdec]
    rfl

/-- C4, amended. For every log whose data does not begin with the wire-format
RLP encoding of an identifier, `decodeExecutingMessage` returns an error and no
identifier. -/
theorem decodeExecutingMessage_error_of_no_encoding (messageLog : Log) (heap : List Identifier)
    (h : ∀ id : Identifier, id.valid → ∀ rest, messageLog.Data ≠ encodeIdentifier id ++ rest) :
    ∃ e, decodeExecutingMessage messageLog heap = .error e := by
  unfold decodeExecutingMessage
  cases hd : rlpDecode messageLog.Data with
  | error e => exact ⟨e, rfl⟩
  | ok id =>
    obtain ⟨hv, rest, hrest⟩ := rlpDecode_ok _ _ hd
    exact absurd hrest (h id hv rest)

/-- C4, witness: the log with empty data does not begin with any encoding and is
refused. -/
theorem decodeExecutingMessage_error_of_no_encoding_witness :
    (∀ id : Identifier, id.valid →
        ∀ rest, malformedDestinationLog.Data ≠ encodeIdentifier id ++ rest) ∧
      ∃ e, decodeExecutingMessage malformedDestinationLog [] = .error e :=
  ⟨fun id _ rest => encodeIdentifier_append_ne_nil id rest,
    decodeExecutingMessage_error_of_no_encoding malformedDestinationLog []
      (fun id _ rest => encodeIdentifier_append_ne_nil id rest)⟩

/-- C2, evaluation at scenario S1. After the source log and the destination log
were processed, in either order, the index holds two entries whose keys point
to identifiers with the same five fields, one with a nil value and one with the
message hash: no entry is paired. -/
theorem pairing_scenario_two_entries :
    processDestinationLog
        (processSourceLog scenarioLatest scenarioChain State.init scenarioSourceLog)
        scenarioDestinationLog =
      .ok ⟨[scenarioId, scenarioId], [(0, none), (1, some 0xDEAD)]⟩ ∧
    processDestinationLog State.init scenarioDestinationLog =
      .ok ⟨[scenarioId], [(0, some 0xDEAD)]⟩ ∧
    processSourceLog scenarioLatest scenarioChain ⟨[scenarioId], [(0, some 0xDEAD)]⟩
        scenarioSourceLog =
      ⟨[scenarioId, scenarioId], [(0, some 0xDEAD), (1, none)]⟩ ∧
    State.entriesFor ⟨[scenarioId, scenarioId], [(0, none), (1, some 0xDEAD)]⟩ scenarioId =
      [(0, none), (1, some 0xDEAD)] ∧
    State.entriesFor ⟨[scenarioId, scenarioId], [(0, some 0xDEAD), (1, none)]⟩ scenarioId =
      [(0, some 0xDEAD), (1, none)] := by
  refine ⟨by decide, by decide, by decide, by decide, by decide⟩

/-- C5, evaluation. Processing the source log of scenario S1 once gives one
entry; processing it a second time gives a second entry for an identifier with
the same five fields, and so does a single log that carries the initiating hash
as two of its topics. -/
theorem duplicate_source_log_two_entries :
    processSourceLog scenarioLatest scenarioChain State.init scenarioSourceLog =
      ⟨[scenarioId], [(0, none)]⟩ ∧
    processSourceLog scenarioLatest scenarioChain
        (processSourceLog scenarioLatest scenarioChain State.init scenarioSourceLog)
        scenarioSourceLog =
      ⟨[scenarioId, scenarioId], [(0, none), (1, none)]⟩ ∧
    processSourceLog scenarioLatest scenarioChain State.init doubleTopicLog =
      ⟨[scenarioId, scenarioId], [(0, none), (1, none)]⟩ ∧
    (State.entriesFor ⟨[scenarioId, scenarioId], [(0, none), (1, none)]⟩ scenarioId).length
      = 2 := by
  refine ⟨by decide, by decide, by decide, by decide⟩

/-- C3, counterexample. The first topic of `secondTopicSourceLog` is not the
initiating signature hash, and processing the log in the source scan adds an
entry to the empty index. -/
theorem second_topic_match_mutates_index :
    secondTopicSourceLog.Topics.head? ≠ some initiatingMessageHash ∧
      (processSourceLog scenarioLatest scenarioChain State.init
        secondTopicSourceLog).initiatingMsgMap = [(0, none)] ∧
      State.init.initiatingMsgMap = [] := by
  refine ⟨by decide, by decide, by decide⟩

/-- C3, amended. For every log none of whose topics is the expected signature
hash (`initiatingMessageHash` in the source scan, `executingMessageHash` in the
destination scan), processing that log leaves the heap and the index
unchanged. -/
theorem no_matching_topic_index_unchanged (st : State) (l : Log) (b : Block) (c : Chain) :
    ((∀ t ∈ l.Topics, t ≠ initiatingMessageHash) → processSourceLog b c st l = st) ∧
      ((∀ t ∈ l.Topics, t ≠ executingMessageHash) → processDestinationLog st l = .ok st) :=
  ⟨fun h => sourceTopics_no_match l b c l.Topics st h,
    fun h => processDestinationLog_no_match l st h⟩

/-- C3, witness: a log with topics 1 and 2 changes nothing in either scan. -/
theorem no_matching_topic_index_unchanged_witness :
    (∀ t ∈ foreignLog.Topics, t ≠ initiatingMessageHash) ∧
      (∀ t ∈ foreignLog.Topics, t ≠ executingMessageHash) ∧
      processSourceLog scenarioLatest scenarioChain ⟨[scenarioId], [(0, none)]⟩ foreignLog =
        ⟨[scenarioId], [(0, none)]⟩ ∧
      processDestinationLog ⟨[scenarioId], [(0, none)]⟩ foreignLog =
        .ok ⟨[scenarioId], [(0, none)]⟩ :=
  ⟨by decide, by decide,
    (no_matching_topic_index_unchanged ⟨[scenarioId], [(0, none)]⟩ foreignLog scenarioLatest
      scenarioChain).1 (by decide),
    (no_matching_topic_index_unchanged ⟨[scenarioId], [(0, none)]⟩ foreignLog scenarioLatest
      scenarioChain).2 (by decide)⟩

/-- The identifiers the source scan allocates for a log (one per topic equal to
the initiating hash) take origin, block number and log index from the log, the
chain id from the scanning chain, and the timestamp from the receipt time of
the latest block of the scan, converted to `uint64`. -/
theorem source_identifier_fields (st : State) (l : Log) (b : Block) (c : Chain)
    (hidx : l.Index < 2 ^ 64) :
    (processSourceLog b c st l).heap =
        st.heap ++ List.replicate (l.Topics.count initiatingMessageHash)
          (sourceIdentifier l b c) ∧
      (sourceIdentifier l b c).Origin = l.Address ∧
      (sourceIdentifier l b c).BlockNumber = l.BlockNumber ∧
      (sourceIdentifier l b c).LogIndex = l.Index ∧
      (sourceIdentifier l b c).Timestamp = uint64OfInt b.ReceivedAt ∧
      (sourceIdentifier l b c).ChainId = c.ChainId :=
  ⟨sourceTopics_heap l b c l.Topics st, rfl, rfl, Nat.mod_eq_of_lt hidx, rfl, rfl⟩

/-- C6, evaluation. The source log of scenario S1 lies in block 100, whose
timestamp is 1699999986. The latest block comes from the chain client with its
receipt time unset, so the identifier the source scan builds for the log
carries 18446744011573954816, the zero time converted to `uint64`, and not the
timestamp of the block that contains the log; the same value results for every
log and every chain. -/
theorem source_timestamp_is_unset_receipt_time :
    scenarioLogBlock.Number = scenarioSourceLog.BlockNumber ∧
      initiatingMessageHash ∈ scenarioSourceLog.Topics ∧
      (processSourceLog fetchedLatest scenarioChain State.init scenarioSourceLog).heap =
        [sourceIdentifier scenarioSourceLog fetchedLatest scenarioChain] ∧
      (sourceIdentifier scenarioSourceLog fetchedLatest scenarioChain).Timestamp =
        18446744011573954816 ∧
      (sourceIdentifier scenarioSourceLog fetchedLatest scenarioChain).Timestamp ≠
        scenarioLogBlock.Time ∧
      ∀ (l : Log) (c : Chain),
        (sourceIdentifier l fetchedLatest c).Timestamp = 18446744011573954816 := by
  refine ⟨by decide, by decide, by decide, by decide, by decide, ?_⟩
  intro l c
  rfl

/-- C7, counterexample. A destination log list that starts with a log whose
payload is not RLP ends in the fatal decoding error; the list with that log
removed gives an index with one entry. -/
theorem malformed_log_stops_scan :
    rlpDecode malformedDestinationLog.Data = .error .EOF ∧
      processDestinationLogs [malformedDestinationLog, scenarioDestinationLog] State.init =
        .error (.fatalDecode .EOF) ∧
      processDestinationLogs [scenarioDestinationLog] State.init =
        .ok ⟨[scenarioId], [(0, some 0xDEAD)]⟩ := by
  refine ⟨by decide, by decide, by decide⟩

/-- C7, amended. A destination log with at least two topics, one of them the
executing hash, whose payload fails to decode ends the scan in the fatal error
of `log.Fatalf`: the logs before it are processed, no later log is, and no
index results. The logs the loop passes over are exactly those with fewer than
two topics or without the executing hash among their topics: removing them
from the list does not change the result, and every other log either ends the
scan or changes the state, adding to an index whose keys are all allocated one
entry with the second topic as value for each topic equal to the executing
hash. -/
theorem decode_failure_is_fatal (pre post : List Log) (bad : Log) (st st1 : State)
    (e : RlpError) (hpre : processDestinationLogs pre st = .ok st1)
    (htopics : 2 ≤ bad.Topics.length) (hmatch : executingMessageHash ∈ bad.Topics)
    (hdec : rlpDecode bad.Data = .error e) :
    processDestinationLogs (pre ++ bad :: post) st = .error (.fatalDecode e) ∧
      (∀ (logs : List Log) (st0 : State),
        processDestinationLogs (logs.filter (fun l => !passedOver l)) st0 =
          processDestinationLogs logs st0) ∧
      (∀ (l : Log) (st0 : State), passedOver l = true → processDestinationLog st0 l = .ok st0) ∧
      (∀ (l : Log) (st0 : State), passedOver l = false →
        processDestinationLog st0 l ≠ .ok st0) ∧
      (∀ (l : Log) (st0 st2 : State), st0.wf → passedOver l = false →
        processDestinationLog st0 l = .ok st2 →
        ∃ m id, l.Topics.get? 1 = some m ∧ rlpDecode l.Data = .ok id ∧
          0 < l.Topics.count executingMessageHash ∧
          st2.heap = st0.heap ++ List.replicate (l.Topics.count executingMessageHash) id ∧
          st2.initiatingMsgMap = st0.initiatingMsgMap ++
            (List.range (l.Topics.count executingMessageHash)).map
              (fun i => (st0.heap.length + i, some m))) := by
  refine ⟨?_, processDestinationLogs_filter, processDestinationLog_passedOver,
    processDestinationLog_not_passedOver, ?_⟩
  · rw [processDestinationLogs_append, hpre]
    simp only [processDestinationLogs]
    have hbad : processDestinationLog st1 bad = .error (.fatalDecode e) := by
      unfold processDestinationLog
      split
      · exact destinationTopics_decode_error bad _ bad.Topics st1 e hdec hmatch
      · rename_i hne
        match hT : bad.Topics, htopics with
        | a :: m :: rest, _ => exact absurd hT (hne a m rest)
    rw [hbad]
  · intro l st0 st2 hwf hp hok
    obtain ⟨a, m, rest, id, hT, hd, hheap, hmap, hc⟩ :=
      processDestinationLog_stores l st0 st2 hwf hp hok
    exact ⟨m, id, by rw [hT]; rfl, hd, hc, hheap, hmap⟩

/-- C7, witness: a good log, then the log with empty data, then a good log; the
good log alone is not passed over and changes the empty state. -/
theorem decode_failure_is_fatal_witness :
    processDestinationLogs [scenarioDestinationLog] State.init =
        .ok ⟨[scenarioId], [(0, some 0xDEAD)]⟩ ∧
      processDestinationLogs
          ([scenarioDestinationLog] ++ malformedDestinationLog :: [scenarioDestinationLog])
          State.init = .error (.fatalDecode .EOF) ∧
      passedOver scenarioDestinationLog = false ∧
      processDestinationLog State.init scenarioDestinationLog ≠ .ok State.init ∧
      State.init.wf :=
  ⟨by decide,
    (decode_failure_is_fatal [scenarioDestinationLog] [scenarioDestinationLog]
      malformedDestinationLog State.init ⟨[scenarioId], [(0, some 0xDEAD)]⟩ .EOF
      (by decide) (by decide) (by decide) (by decide)).1,
    by decide,
    (decode_failure_is_fatal [scenarioDestinationLog] [scenarioDestinationLog]
      malformedDestinationLog State.init ⟨[scenarioId], [(0, some 0xDEAD)]⟩ .EOF
      (by decide) (by decide) (by decide) (by decide)).2.2.2.1 scenarioDestinationLog
      State.init (by decide),
    fun e he => absurd he (List.not_mem_nil e)⟩

/-- C8, evaluation. With start block 100 and latest block 107 the claim asks for
the answer true (107 - 5 > 100); `shouldProcessBlock` gives no answer, it
dereferences the nil receiver `diff`. The comparison that follows, given an
allocated difference `latest - 5`, answers true exactly when
`latest - 5 <= start`, hence false for 100 and 107. -/
theorem shouldProcessBlock_100_107_panics :
    shouldProcessBlock (some 100) (some 107) = .error .nilPointerDereference ∧
      compareToStartBlock (some (107 - 5)) (some 100) = .ok false ∧
      ∀ start latest : Int,
        compareToStartBlock (some (latest - 5)) (some start) =
          .ok (decide (latest - 5 ≤ start)) := by
  refine ⟨by decide, by decide, ?_⟩
  intro start latest
  simp only [compareToStartBlock, bigCmp]
  by_cases h1 : latest - 5 < start
  · simp [h1, le_of_lt h1]
  · by_cases h2 : latest - 5 = start
    · simp [h2]
    · have h3 : ¬ latest - 5 ≤ start := fun h => h1 (lt_of_le_of_ne h h2)
      simp [h1, h2, h3]

/-- C9, evaluation. With the latest block at number 107 neither scan reaches its
log query: both stop on the nil pointer dereference in `shouldProcessBlock`, and
the computation of `toBlock` dereferences a nil receiver as well; the same
subtraction on an allocated receiver gives 102. -/
theorem scans_panic_before_query :
    sourceScan (fixedClient scenarioLatest [scenarioSourceLog]) State.init =
        .error .nilPointerDereference ∧
      destinationScan (fixedClient scenarioLatest [scenarioDestinationLog]) State.init =
        .error .nilPointerDereference ∧
      computeToBlock (some 107) = .error .nilPointerDereference ∧
      bigSub (some 0) (some 107) blockRangeSize = .ok (some 102) := by
  refine ⟨by decide, by decide, by decide, by decide⟩

/-- C10, evaluation. For all non-nil block numbers, `shouldProcessBlock` and the
`toBlock` computation of both scans dereference a nil receiver and return no
value. -/
theorem shouldProcessBlock_nil_receiver (start latest : Int) :
    shouldProcessBlock (some start) (some latest) = .error .nilPointerDereference ∧
      computeToBlock (some latest) = .error .nilPointerDereference :=
  ⟨rfl, rfl⟩

end SupechainShark

